import Mathlib

/-!
# Verification of the `HashRing` consistent-hashing engine

Shallow embedding of the hash-ring implementation (`src/hash-ring.ts`, the
BST-based variant with adjacency repair).  The TypeScript class
`HashRing<T>` holds a binary search tree of digest strings (`root`), a
digest→node `Map` (`nodesMap`), a digest→virtual-key `Map`
(`virtualKeyMap`), a replica count, an injected hash function, an optional
comparator (defaulting to `localeCompare`) and an injected
`nodeToString`.  JavaScript `Map`s preserve insertion order, which the
embedding models with association lists; the comparator is modelled as a
total function into `Ordering` (the code only inspects the sign of the
returned number); JavaScript string `===` is string equality.

The two unbounded loops of `fixAdjacentReplicas` (the outer repair loop
and the inner rotation `do…while`) are modelled with an explicit fuel
parameter; a `RepairExit.outOfFuel` result corresponds to an execution of
the real code that has not returned within the given bound (the source
has no bound of its own, so divergence of the source appears here as
`outOfFuel` for every fuel value).
-/

namespace HashRingModel

/-- Models `TreeNode<H>`: a binary tree of digest strings; `leaf` plays the
role of `undefined`. -/
inductive Tree where
  | leaf : Tree
  | node : Tree → String → Tree → Tree
deriving DecidableEq

/-- The injected configuration of a ring instance: `replicas`, `hashFn`,
the resolved comparator (`sortFn ?? localeCompare` in the source) and
`nodeToString`. -/
structure Config (T : Type) where
  replicas : Nat
  hashFn : String → String
  cmp : String → String → Ordering
  nodeToString : T → String

/-- The mutable state of a `HashRing` instance: the BST of digests, the
digest→node table and the digest→virtual-key ledger (both insertion
ordered, as JavaScript `Map`s are). -/
structure Ring (T : Type) where
  root : Tree
  nodesMap : List (String × T)
  virtualKeyMap : List (String × String)
deriving DecidableEq

/-- The ring produced by `new HashRing([])`. -/
def emptyRing (T : Type) : Ring T := ⟨Tree.leaf, [], []⟩

/-- Lexicographic comparison of character lists by code point. -/
def charListCmp : List Char → List Char → Ordering
  | [], [] => .eq
  | [], _ :: _ => .lt
  | _ :: _, [] => .gt
  | c :: cs, d :: ds =>
    if c.toNat < d.toNat then .lt
    else if d.toNat < c.toNat then .gt
    else charListCmp cs ds

/-- Models the default comparator: `localeCompare` on digest strings,
which for the plain (ASCII hex/decimal) digests used by the engine is
lexicographic comparison by code unit. -/
def strCmp (a b : String) : Ordering :=
  charListCmp a.data b.data

/-! ## JavaScript `Map` model (insertion-ordered association list) -/

/-- `Map.get`. -/
def mapGet {β : Type} (m : List (String × β)) (k : String) : Option β :=
  (m.find? (fun p => decide (p.1 = k))).map (·.2)

/-- `Map.set`: updates the value in place if the key is present (keeping
its position), otherwise appends. -/
def mapSet {β : Type} (m : List (String × β)) (k : String) (v : β) :
    List (String × β) :=
  match m with
  | [] => [(k, v)]
  | p :: rest => if p.1 = k then (k, v) :: rest else p :: mapSet rest k v

/-- `Map.delete`. -/
def mapDelete {β : Type} (m : List (String × β)) (k : String) :
    List (String × β) :=
  m.filter (fun p => decide (¬ p.1 = k))

/-- `Map.has`. -/
def mapHas {β : Type} (m : List (String × β)) (k : String) : Bool :=
  m.any (fun p => decide (p.1 = k))

/-! ## Binary search tree operations (private methods of the class) -/

/-- `insertNode`: BST insert using the ring comparator; ties descend to
the right (the source tests `cmp < 0` only). -/
def insertNode (cmp : String → String → Ordering) :
    Tree → String → Tree
  | .leaf, v => .node .leaf v .leaf
  | .node l x r, v =>
    if cmp v x = .lt then .node (insertNode cmp l v) x r
    else .node l x (insertNode cmp r v)

/-- `minNode` on a possibly-empty subtree (the source only calls it on
non-empty nodes; `none` models the unreachable empty case). -/
def minNode : Tree → Option String
  | .leaf => none
  | .node .leaf v _ => some v
  | .node (.node l x r) _ _ => minNode (.node l x r)

/-- `deleteNode`: BST delete with in-order-successor replacement.  The
found-node arm mirrors the source's shape tests (`if (!node.left) return
node.right; if (!node.right) return node.left;`) with `leaf` playing
`undefined`; `minNode` is only reached on a non-leaf right child, where
it returns `some` (the `""` default is unreachable, modelling the
source's `!` assertion). -/
def deleteNode (cmp : String → String → Ordering) :
    Tree → String → Tree
  | .leaf, _ => .leaf
  | .node l x r, v =>
    match cmp v x with
    | .lt => .node (deleteNode cmp l v) x r
    | .gt => .node l x (deleteNode cmp r v)
    | .eq =>
      if l = .leaf then r
      else if r = .leaf then l
      else
        let sv := (minNode r).getD ""
        .node l sv (deleteNode cmp r sv)

/-- `findSuccessor`: first value `≥ target`, carrying the best candidate
in an accumulator.  The source compares `node.value === target` with
string equality before consulting the comparator. -/
def findSuccessor (cmp : String → String → Ordering) :
    Tree → String → Option String → Option String
  | .leaf, _, succ => succ
  | .node l x r, target, succ =>
    if x = target then some x
    else if cmp x target = .gt then findSuccessor cmp l target (some x)
    else findSuccessor cmp r target succ

/-- In-order traversal of a subtree (helper for `getSortedDigests`). -/
def inorder : Tree → List String
  | .leaf => []
  | .node l x r => inorder l ++ x :: inorder r

/-- Membership in the position index. -/
def treeMem (t : Tree) (v : String) : Bool :=
  match t with
  | .leaf => false
  | .node l x r => decide (x = v) || treeMem l v || treeMem r v

/-- `getSortedDigests`: in-order traversal of the root. -/
def getSortedDigests {T : Type} (s : Ring T) : List String :=
  inorder s.root

/-! ## Read-only queries -/

/-- `getNodesCount`: `nodesMap.size / replicas`.  JavaScript division is
real division, so the result is modelled as a rational. -/
def getNodesCount {T : Type} (cfg : Config T) (s : Ring T) : ℚ :=
  (s.nodesMap.length : ℚ) / (cfg.replicas : ℚ)

/-- An entry of `getOrderedNodes`. -/
structure OrderedEntry (T : Type) where
  position : String
  node : T
  replicaIndex : Int
deriving DecidableEq

instance {T : Type} [Inhabited T] : Inhabited (OrderedEntry T) :=
  ⟨⟨"", default, -1⟩⟩

/-- Does a character list begin with `":spread"`? (helper for the replica
index regular expression `:([0-9]+)(?::spread|$|_)`). -/
def startsWithSpread : List Char → Bool
  | ':' :: 's' :: 'p' :: 'r' :: 'e' :: 'a' :: 'd' :: _ => true
  | _ => false

/-- Numeric value of a digit run (`parseInt`). -/
def digitsToNat (ds : List Char) : Nat :=
  ds.foldl (fun acc c => 10 * acc + (c.toNat - '0'.toNat)) 0

/-- Scanner for the source's regex `:([0-9]+)(?::spread|$|_)`: finds the
first `:` followed by a non-empty digit run whose continuation is
`":spread"`, the end of the string, or `'_'`; returns `-1` when no such
match exists.  (Shortening the greedy digit run can never help, because
the following character would then be a digit, matching none of the three
alternatives, so this scan is equivalent to the backtracking regex.) -/
def replicaIndexScan : List Char → Int
  | [] => -1
  | ':' :: rest =>
    let ds := rest.takeWhile Char.isDigit
    let tl := rest.dropWhile Char.isDigit
    if ds ≠ [] ∧ (tl = [] ∨ tl.head? = some '_' ∨ startsWithSpread tl = true)
    then (digitsToNat ds : Int)
    else replicaIndexScan rest
  | _ :: rest => replicaIndexScan rest

/-- Replica index recovered from a stored virtual key string. -/
def parseReplicaIndex (vk : String) : Int :=
  replicaIndexScan vk.data

/-- `getOrderedNodes`: sorted digests with their bound node and recovered
replica index; digests with no binding in `nodesMap` are skipped. -/
def getOrderedNodes {T : Type} (cfg : Config T) (s : Ring T) :
    List (OrderedEntry T) :=
  (getSortedDigests s).filterMap (fun digest =>
    match mapGet s.nodesMap digest with
    | none => none
    | some node =>
      some ⟨digest, node,
        parseReplicaIndex ((mapGet s.virtualKeyMap digest).getD "")⟩)

/-- An adjacent-replica pair reported by `findAdjacentReplicas`. -/
structure AdjPair (T : Type) where
  node : T
  positions : String × String
  indices : Nat × Nat
deriving DecidableEq

/-- `findAdjacentReplicas`: consecutive (circularly, including the
wrap-around pair) ordered positions owned by the same physical node,
compared by `nodeToString`. -/
def findAdjacentReplicas {T : Type} [Inhabited T] (cfg : Config T)
    (s : Ring T) : List (AdjPair T) :=
  let l := getOrderedNodes cfg s
  if l.length < 2 then []
  else
    (List.range l.length).filterMap (fun i =>
      let current := l.getD i default
      let next := l.getD ((i + 1) % l.length) default
      if cfg.nodeToString current.node = cfg.nodeToString next.node then
        some ⟨current.node, (current.position, next.position),
              (i, (i + 1) % l.length)⟩
      else none)

/-- `getUniqueNodeCount`: the size of the set of `nodeToString` images of
the bound nodes. -/
def getUniqueNodeCount {T : Type} (cfg : Config T) (s : Ring T) : Nat :=
  ((s.nodesMap.map (fun p => cfg.nodeToString p.2)).toFinset).card

/-- Stable insertion into an ascending list (helper for the JavaScript
stable `Array.prototype.sort`). -/
def insOrdered {α : Type} (lt : α → α → Bool) (x : α) : List α → List α
  | [] => [x]
  | y :: ys => if lt x y then x :: y :: ys else y :: insOrdered lt x ys

/-- Stable ascending sort by a boolean strict comparison (models the
stable `Array.prototype.sort` with a comparator; each element is inserted
after any elements the comparator does not order strictly after it, so
comparator-equal elements keep their original relative order). -/
def stableSort {α : Type} (lt : α → α → Bool) (l : List α) : List α :=
  l.foldl (fun acc x => insOrdered lt x acc) []

/-- `checkIfPositionCreatesAdjacency`: simulate inserting `position` for
`node` into the current sorted position list and inspect the two
circular neighbours. -/
def checkIfPositionCreatesAdjacency {T : Type} [Inhabited T]
    (cfg : Config T) (s : Ring T) (node : T) (position : String) : Bool :=
  let positions := s.nodesMap ++ [(position, node)]
  let sorted :=
    stableSort (fun a b => decide (cfg.cmp a.1 b.1 = .lt)) positions
  match sorted.findIdx? (fun p => decide (p.1 = position)) with
  | none => false
  | some idx =>
    let len := sorted.length
    let prev := sorted.getD ((idx + len - 1) % len) ("", default)
    let next := sorted.getD ((idx + 1) % len) ("", default)
    decide (cfg.nodeToString prev.2 = cfg.nodeToString node ∨
      cfg.nodeToString next.2 = cfg.nodeToString node)

/-! ## Adjacency repair (`fixAdjacentReplicas`) -/

/-- Exit status of a repair pass.  `skipped` is the early return for
fewer than two distinct physical nodes; `done` is a normal exit of the
`while` loop with no adjacent pairs left; `gaveUp` is the `break` taken
when no non-adjacent relocation index exists; `outOfFuel` marks an
execution of the (unbounded) source loops that has not returned within
the fuel bound. -/
inductive RepairExit where
  | skipped : RepairExit
  | done : RepairExit
  | gaveUp : RepairExit
  | outOfFuel : RepairExit
deriving DecidableEq

/-- The rotation `do…while`: try virtual keys
`oldVk ++ "_rotate" ++ attempt` with increasing attempt numbers until the
resulting digest is unused and placing it would not create a new
adjacency.  The source loop carries no bound; `none` models running out
of fuel. -/
def rotateSearch {T : Type} [Inhabited T] (cfg : Config T) (s : Ring T)
    (node : T) (oldVk : String) : Nat → Nat → Option (String × String)
  | _, 0 => none
  | attempt, fuel + 1 =>
    let newVk := oldVk ++ "_rotate" ++ toString attempt
    let newDigest := cfg.hashFn newVk
    if mapHas s.nodesMap newDigest ∨
        checkIfPositionCreatesAdjacency cfg s node newDigest then
      rotateSearch cfg s node oldVk (attempt + 1) fuel
    else some (newDigest, newVk)

/-- One search of the ordered replica list for a relocation index `j`
(excluding the pair's own two indices) whose circular neighbours are not
owned by the second replica's physical node (`targetIndex` in the
source; `none` is `targetIndex === -1`). -/
def findRelocationIndex {T : Type} [Inhabited T] (cfg : Config T)
    (l : List (OrderedEntry T)) (firstIndex secondIndex : Nat) :
    Option Nat :=
  (List.range l.length).find? (fun i =>
    decide (i ≠ firstIndex) && decide (i ≠ secondIndex) &&
    (let prevNode := (l.getD ((i + l.length - 1) % l.length) default).node
     let nextNode := (l.getD ((i + 1) % l.length) default).node
     let currentNode := (l.getD secondIndex default).node
     decide (cfg.nodeToString prevNode ≠ cfg.nodeToString currentNode) &&
     decide (cfg.nodeToString nextNode ≠ cfg.nodeToString currentNode)))

/-- The `while (adjacentPairs.length > 0)` loop of
`fixAdjacentReplicas`, with fuel. -/
def repairLoop {T : Type} [Inhabited T] (cfg : Config T) :
    Nat → Ring T → Ring T × RepairExit
  | 0, s => (s, .outOfFuel)
  | fuel + 1, s =>
    match findAdjacentReplicas cfg s with
    | [] => (s, .done)
    | pair :: _ =>
      let l := getOrderedNodes cfg s
      match findRelocationIndex cfg l pair.indices.1 pair.indices.2 with
      | none => (s, .gaveUp)
      | some _ =>
        let secondNode := l.getD pair.indices.2 default
        let oldDigest := secondNode.position
        let oldVk := (mapGet s.virtualKeyMap oldDigest).getD ""
        let s₁ : Ring T :=
          ⟨deleteNode cfg.cmp s.root oldDigest,
           mapDelete s.nodesMap oldDigest,
           mapDelete s.virtualKeyMap oldDigest⟩
        match rotateSearch cfg s₁ secondNode.node oldVk 1 (fuel + 1) with
        | none => (s₁, .outOfFuel)
        | some (newDigest, newVk) =>
          repairLoop cfg fuel
            ⟨insertNode cfg.cmp s₁.root newDigest,
             mapSet s₁.nodesMap newDigest secondNode.node,
             mapSet s₁.virtualKeyMap newDigest newVk⟩

/-- `fixAdjacentReplicas`: early return when fewer than two distinct
physical nodes exist, otherwise the rotation repair loop. -/
def fixAdjacentReplicas {T : Type} [Inhabited T] (cfg : Config T)
    (fuel : Nat) (s : Ring T) : Ring T × RepairExit :=
  if getUniqueNodeCount cfg s < 2 then (s, .skipped)
  else repairLoop cfg fuel s

/-! ## Membership: `addNode` / `removeNode` / constructor -/

/-- The spread factor
`Math.floor(i / Math.max(1, this.getNodesCount())) + 1`: JavaScript
evaluates this with real division (`getNodesCount()` can be
fractional).  For `size ≤ replicas` the divisor clamps to `1`, giving
`i + 1`; otherwise `⌊i / (size/replicas)⌋ = ⌊i·replicas/size⌋`, which is
the integer division below.  The lemma `spreadFactor_eq_floor` proves
this integer form equal to the rational floor formula. -/
def spreadFactor {T : Type} (cfg : Config T) (s : Ring T) (i : Nat) :
    Nat :=
  let size := s.nodesMap.length
  if size ≤ cfg.replicas then i + 1
  else (i * cfg.replicas) / size + 1

/-- The virtual key built for replica index `i`:
`"<nodeStr>:<i>:spread<f>"` under spread hashing, else
`"<nodeStr>:<i>"`. -/
def virtualKeyFor {T : Type} (cfg : Config T) (s : Ring T) (node : T)
    (useSpreadHashing : Bool) (i : Nat) : String :=
  if useSpreadHashing then
    cfg.nodeToString node ++ ":" ++ toString i ++ ":spread" ++
      toString (spreadFactor cfg s i)
  else cfg.nodeToString node ++ ":" ++ toString i

/-- One iteration of the replica-insertion loop of `addNode`: build the
virtual key, hash it, insert the digest into the tree and both maps. -/
def insertReplica {T : Type} (cfg : Config T) (node : T)
    (useSpreadHashing : Bool) (i : Nat) (s : Ring T) : Ring T :=
  let vk := virtualKeyFor cfg s node useSpreadHashing i
  let digest := cfg.hashFn vk
  ⟨insertNode cfg.cmp s.root digest,
   mapSet s.nodesMap digest node,
   mapSet s.virtualKeyMap digest vk⟩

/-- The replica-insertion loop of `addNode`, starting at replica index
`i` with `count` iterations remaining. -/
def addReplicasFrom {T : Type} (cfg : Config T) (node : T)
    (useSpreadHashing : Bool) : Nat → Nat → Ring T → Ring T
  | _, 0, s => s
  | i, count + 1, s =>
    addReplicasFrom cfg node useSpreadHashing (i + 1) count
      (insertReplica cfg node useSpreadHashing i s)

/-- The full replica-insertion phase of `addNode`
(`for (let i = 0; i < this.replicas; i++) …`). -/
def addReplicas {T : Type} (cfg : Config T) (s : Ring T) (node : T)
    (useSpreadHashing : Bool) : Ring T :=
  addReplicasFrom cfg node useSpreadHashing 0 cfg.replicas s

/-- `addNode(node, useSpreadHashing = false)`: insert all replicas, then
run adjacency repair.  Also returns the repair exit status. -/
def addNode {T : Type} [Inhabited T] (cfg : Config T) (fuel : Nat)
    (s : Ring T) (node : T) (useSpreadHashing : Bool) :
    Ring T × RepairExit :=
  fixAdjacentReplicas cfg fuel (addReplicas cfg s node useSpreadHashing)

/-- The scan of `removeNode`: every digest whose bound node has the
target's `nodeToString` (`digestsToRemove` in the source). -/
def digestsToRemove {T : Type} (cfg : Config T) (s : Ring T) (node : T) :
    List String :=
  (s.nodesMap.filter (fun p =>
    decide (cfg.nodeToString p.2 = cfg.nodeToString node))).map (·.1)

/-- The deletion phase of `removeNode`: delete each collected digest
from the tree and both maps. -/
def removePhase {T : Type} (cfg : Config T) (s : Ring T) (node : T) :
    Ring T :=
  (digestsToRemove cfg s node).foldl (fun st d =>
    ⟨deleteNode cfg.cmp st.root d,
     mapDelete st.nodesMap d,
     mapDelete st.virtualKeyMap d⟩) s

/-- `removeNode(node)`: deletion phase followed by adjacency repair. -/
def removeNode {T : Type} [Inhabited T] (cfg : Config T) (fuel : Nat)
    (s : Ring T) (node : T) : Ring T × RepairExit :=
  fixAdjacentReplicas cfg fuel (removePhase cfg s node)

/-- The constructor `new HashRing(nodes, …, spreadHashing = true, …)`
seeds the ring by calling `addNode(n, spreadHashing)` for each initial
node, in the given order. -/
def constructorModel {T : Type} [Inhabited T] (cfg : Config T)
    (fuel : Nat) (nodes : List T) (spreadHashing : Bool) : Ring T :=
  nodes.foldl (fun s n => (addNode cfg fuel s n spreadHashing).1)
    (emptyRing T)

/-! ## Lookup and range queries -/

/-- `getNode(key)`: hash the key, find the successor digest (wrapping to
the minimum digest when none exists), and return the bound node. -/
def getNode {T : Type} (cfg : Config T) (s : Ring T) (key : String) :
    Option T :=
  if s.root = .leaf then none
  else
    let digest := cfg.hashFn key
    let target :=
      (findSuccessor cfg.cmp s.root digest none).getD
        ((minNode s.root).getD "")
    mapGet s.nodesMap target

/-- A `{start, end}` range; the field `stop` models the source's `end`
property (`end` is a Lean keyword). -/
structure HRange where
  start : String
  stop : String
deriving DecidableEq

/-- `getNodeForRange(range)`: the node bound to the range's end digest. -/
def getNodeForRange {T : Type} (cfg : Config T) (s : Ring T)
    (range : HRange) : Option T :=
  mapGet s.nodesMap range.stop

/-- Is `digest` inside `[startD, endD]` under the ring comparator, with
wrap-around (`≥ startD` OR `≤ endD`) when `cmp startD endD > 0`?
(`cmp x y ≥ 0` is `cmp x y ≠ .lt`, `≤ 0` is `≠ .gt`.) -/
def inRangeB {T : Type} (cfg : Config T) (startD endD digest : String) :
    Bool :=
  if cfg.cmp startD endD = .gt then
    decide (cfg.cmp digest startD ≠ .lt) ||
      decide (cfg.cmp digest endD ≠ .gt)
  else
    decide (cfg.cmp digest startD ≠ .lt) &&
      decide (cfg.cmp digest endD ≠ .gt)

/-- JavaScript `Set.add` on the insertion-ordered element list: append
if not already present (SameValueZero equality on the node values). -/
def setInsert {T : Type} [DecidableEq T] (l : List T) (x : T) : List T :=
  if x ∈ l then l else l ++ [x]

/-- `getNodesInRange(start, end)`: every node bound to a stored digest
inside the (possibly wrap-around) range, deduplicated by the `Set`. -/
def getNodesInRange {T : Type} [DecidableEq T] (cfg : Config T)
    (s : Ring T) (startD endD : String) : List T :=
  let all := getSortedDigests s
  if all.length = 0 then []
  else
    all.foldl (fun acc digest =>
      if inRangeB cfg startD endD digest then
        match mapGet s.nodesMap digest with
        | some node => setInsert acc node
        | none => acc
      else acc) []

/-! ## Spec-side routing description (for the refinement claim C5) -/

/-- Spec-side description of `getNode`'s target digest (§4.2 of the
spec, in its own words): the smallest stored digest `≥` the key's digest
in the ascending digest list, or, when no stored digest is `≥` it, the
minimum stored digest (wrap-around).  "`≥` under the ring's comparator"
is `strCmp h d ≠ .gt` for the default comparator. -/
def specRoute (digests : List String) (h : String) : Option String :=
  match digests.find? (fun d => decide (strCmp h d ≠ .gt)) with
  | some d => some d
  | none => digests.head?

/-! ## Operation sequences (verification vocabulary for C6) -/

/-- One public mutation call: `addNode(n, spread)` or `removeNode(n)`. -/
inductive Op (T : Type) where
  | add (n : T) (spread : Bool) : Op T
  | remove (n : T) : Op T

/-- Run one mutation call. -/
def execOp {T : Type} [Inhabited T] (cfg : Config T) (fuel : Nat)
    (s : Ring T) : Op T → Ring T × RepairExit
  | .add n sp => addNode cfg fuel s n sp
  | .remove n => removeNode cfg fuel s n

/-- Run a finite sequence of mutation calls. -/
def execOps {T : Type} [Inhabited T] (cfg : Config T) (fuel : Nat) :
    Ring T → List (Op T) → Ring T
  | s, [] => s
  | s, op :: ops => execOps cfg fuel (execOp cfg fuel s op).1 ops

/-- Is some bound node's `nodeToString` equal to `str`? -/
def presentB {T : Type} (cfg : Config T) (s : Ring T) (str : String) :
    Bool :=
  s.nodesMap.any (fun p => decide (cfg.nodeToString p.2 = str))

/-- How many virtual positions (digest→node bindings) the physical node
identified by `str` owns. -/
def ownedCount {T : Type} (cfg : Config T) (s : Ring T) (str : String) :
    Nat :=
  (s.nodesMap.filter (fun p =>
    decide (cfg.nodeToString p.2 = str))).length

/-- A legal mutation step for C6: an added node is currently absent and
all its fresh digests are collision-free (the table grows by exactly
`replicas`, which holds iff every inserted digest was new — the §3
no-collision invariant), and the call returns (`≠ outOfFuel`). -/
def legalStep {T : Type} [Inhabited T] (cfg : Config T) (fuel : Nat)
    (s : Ring T) : Op T → Bool
  | .add n sp =>
    decide ((addReplicas cfg s n sp).nodesMap.length =
      s.nodesMap.length + cfg.replicas) &&
    !presentB cfg s (cfg.nodeToString n) &&
    decide ((addNode cfg fuel s n sp).2 ≠ .outOfFuel)
  | .remove n =>
    decide ((removeNode cfg fuel s n).2 ≠ .outOfFuel)

/-- A legal run: every step is legal in the state it executes in. -/
def legalRun {T : Type} [Inhabited T] (cfg : Config T) (fuel : Nat) :
    Ring T → List (Op T) → Bool
  | _, [] => true
  | s, op :: ops =>
    legalStep cfg fuel s op &&
      legalRun cfg fuel (execOp cfg fuel s op).1 ops

/-- The C6 bookkeeping invariant: duplicate-free table keys, every
present node owning exactly `replicas` positions, and table size equal
to `replicas × (number of distinct present nodes)`. -/
def InvC6 {T : Type} (cfg : Config T) (s : Ring T) : Prop :=
  (s.nodesMap.map (·.1)).Nodup ∧
  (∀ str : String, presentB cfg s str = true →
    ownedCount cfg s str = cfg.replicas) ∧
  s.nodesMap.length = cfg.replicas * getUniqueNodeCount cfg s

/-! ## Search-tree invariant (verification vocabulary) -/

/-- All values stored in a subtree satisfy `p`. -/
def treeAllB (p : String → Bool) : Tree → Bool
  | .leaf => true
  | .node l x r => p x && treeAllB p l && treeAllB p r

/-- The strict binary-search-tree invariant under the default
comparator: left values compare `lt` to the node value, which compares
`lt` to all right values.  This is the invariant maintained by
`insertNode`/`deleteNode` on collision-free digest sets (§3 of the
spec). -/
def isBSTB : Tree → Bool
  | .leaf => true
  | .node l x r =>
    isBSTB l && isBSTB r &&
    treeAllB (fun v => decide (strCmp v x = .lt)) l &&
    treeAllB (fun v => decide (strCmp x v = .lt)) r

/-! ## Concrete instances used by witnesses and counterexamples

Each configuration injects a small table-driven digest function (the
digest function is an external collaborator, injected by the caller in
the source), the default lexicographic comparator and the default
string `nodeToString` (identity on string nodes). -/

/-- Digest table for the minimal-disruption scenario (C1): four nodes
`A,B,C,D`, two replicas each, plus the rotation keys reached during the
repair that follows `removeNode("B")` and one lookup key. -/
def hash1 : String → String := fun k =>
  match k with
  | "A:0" => "1" | "A:1" => "5"
  | "B:0" => "3" | "B:1" => "7"
  | "C:0" => "2" | "C:1" => "4"
  | "D:0" => "6" | "D:1" => "8"
  | "C:1_rotate1" => "55"
  | "D:1_rotate1" => "25"
  | "k35" => "35"
  | _ => "0"

def cfg1 : Config String := ⟨2, hash1, strCmp, id⟩

/-- Four-node ring built through the public API (every construction-time
repair pass is a no-op for this digest table). -/
def sC1 : Ring String :=
  (addNode cfg1 10
    ((addNode cfg1 10
      ((addNode cfg1 10
        ((addNode cfg1 10 (emptyRing String) "A" false).1)
        "B" false).1)
      "C" false).1)
    "D" false).1

/-- Digest table for the non-termination scenario (C3): every rotation
key hashes to the already-occupied digest `"1"`, so the rotation
`do…while` of the source never exits. -/
def hash3 : String → String := fun k =>
  if k = "A:0" then "1" else if k = "A:1" then "2"
  else if k = "B:0" then "15" else if k = "B:1" then "3"
  else if k = "C:0" then "4" else if k = "C:1" then "5"
  else "1"

def cfg3 : Config String := ⟨2, hash3, strCmp, id⟩

/-- Two-node ring `{A, B}` on which `addNode("C")` diverges (C3). -/
def s2C3 : Ring String :=
  (addNode cfg3 10
    ((addNode cfg3 10 (emptyRing String) "A" false).1) "B" false).1

/-- Digest table with a cross-node collision (C4): the virtual keys
`"A:0"` and `"B:0"` share the digest `"1"`. -/
def hash4 : String → String := fun k =>
  match k with
  | "A:0" => "1"
  | "B:0" => "1"
  | _ => "9"

def cfg4 : Config String := ⟨1, hash4, strCmp, id⟩

def sC4A : Ring String := (addNode cfg4 10 (emptyRing String) "A" false).1

def sC4B : Ring String := (addNode cfg4 10 sC4A "B" false).1

/-- Digest table for the dangling-digest scenario (C5): `"B:0"` and
`"B:1"` collide on `"3"`; the repair triggered by `addNode("C")`
relocates one occupant of `"3"` and deletes the shared binding, leaving
the remaining tree occurrence of `"3"` unbound. -/
def hash5 : String → String := fun k =>
  match k with
  | "A:0" => "1" | "A:1" => "5"
  | "B:0" => "3" | "B:1" => "3"
  | "C:0" => "7" | "C:1" => "9"
  | "B:1_rotate1" => "6"
  | "A:1_rotate1" => "8"
  | "k2" => "2"
  | _ => "0"

def cfg5 : Config String := ⟨2, hash5, strCmp, id⟩

def sC5 : Ring String :=
  (addNode cfg5 10
    ((addNode cfg5 10
      ((addNode cfg5 10 (emptyRing String) "A" false).1) "B" false).1)
    "C" false).1

/-- Digest table with a partial collision (C6): `"B:1"` collides with
`"A:0"` on digest `"1"`, so after `addNode("A"); addNode("B")` node `A`
owns a single virtual position. -/
def hash6 : String → String := fun k =>
  match k with
  | "A:0" => "1" | "A:1" => "2"
  | "B:0" => "3" | "B:1" => "1"
  | _ => "9"

def cfg6 : Config String := ⟨2, hash6, strCmp, id⟩

def sC6 : Ring String :=
  (addNode cfg6 10
    ((addNode cfg6 10 (emptyRing String) "A" false).1) "B" false).1

/-- Digest table for the constructor-seeding scenario (C7): the spread
virtual keys actually built by the constructor's default seeding. -/
def hash7 : String → String := fun k =>
  match k with
  | "A:0:spread1" => "1"
  | "A:1:spread2" => "2"
  | _ => "9"

def cfg7 : Config String := ⟨2, hash7, strCmp, id⟩

/-- Ring produced by `new HashRing(["A"], 2)` (spread hashing defaults
to `true` in the constructor). -/
def sC7 : Ring String := constructorModel cfg7 10 ["A"] true

/-- Nodes for the dedup scenario (C8): two distinct node values that
share a `nodeToString` key. -/
def hash8 : String → String := fun k =>
  match k with
  | "A:0" => "1"
  | "A:0:spread1" => "2"
  | _ => "9"

def cfg8 : Config (String × Nat) := ⟨1, hash8, strCmp, Prod.fst⟩

def sC8 : Ring (String × Nat) :=
  (addNode cfg8 10
    ((addNode cfg8 10 (emptyRing (String × Nat)) ("A", 1) false).1)
    ("A", 2) true).1

/-- Small two-node witness configuration (one replica per node). -/
def hashW : String → String := fun k =>
  match k with
  | "A:0" => "1"
  | "B:0" => "3"
  | "k0" => "0"
  | _ => "9"

def cfgW : Config String := ⟨1, hashW, strCmp, id⟩

def sW1 : Ring String := (addNode cfgW 10 (emptyRing String) "A" false).1

def sW2 : Ring String := (addNode cfgW 10 sW1 "B" false).1

/-! ## Order laws of the default comparator -/

theorem charListCmp_eq_iff (a b : List Char) :
    charListCmp a b = .eq ↔ a = b := by
  induction a generalizing b with
  | nil => cases b <;> simp [charListCmp]
  | cons c cs ih =>
    cases b with
    | nil => simp [charListCmp]
    | cons d ds =>
      by_cases h₁ : c.toNat < d.toNat
      · simp only [charListCmp, if_pos h₁]
        constructor
        · intro h; cases h
        · intro h
          injection h with hc _
          subst hc
          exact absurd h₁ (Nat.lt_irrefl _)
      · by_cases h₂ : d.toNat < c.toNat
        · simp only [charListCmp, if_neg h₁, if_pos h₂]
          constructor
          · intro h; cases h
          · intro h
            injection h with hc _
            subst hc
            exact absurd h₂ (Nat.lt_irrefl _)
        · have hcd : c = d := by
            have : c.toNat = d.toNat := Nat.le_antisymm
              (Nat.le_of_not_lt h₂) (Nat.le_of_not_lt h₁)
            have hval : c.val.toNat = d.val.toNat := this
            exact Char.ext (UInt32.toNat.inj hval)
          subst hcd
          simp only [charListCmp, if_neg h₁, if_neg h₂, ih]
          constructor
          · intro h; rw [h]
          · intro h; injection h

theorem charListCmp_self (a : List Char) : charListCmp a a = .eq :=
  (charListCmp_eq_iff a a).mpr rfl

theorem charListCmp_gt_iff (a b : List Char) :
    charListCmp a b = .gt ↔ charListCmp b a = .lt := by
  induction a generalizing b with
  | nil => cases b <;> simp [charListCmp]
  | cons c cs ih =>
    cases b with
    | nil => simp [charListCmp]
    | cons d ds =>
      by_cases h₁ : c.toNat < d.toNat
      · have h₂ : ¬ d.toNat < c.toNat := Nat.lt_asymm h₁
        simp [charListCmp, h₁, h₂]
      · by_cases h₂ : d.toNat < c.toNat
        · simp [charListCmp, h₁, h₂]
        · simp [charListCmp, h₁, h₂, ih]

theorem charListCmp_lt_trans {a b c : List Char}
    (h₁ : charListCmp a b = .lt) (h₂ : charListCmp b c = .lt) :
    charListCmp a c = .lt := by
  induction a generalizing b c with
  | nil =>
    cases b with
    | nil => cases h₁
    | cons d ds =>
      cases c with
      | nil => cases h₂
      | cons e es => simp [charListCmp]
  | cons x xs ih =>
    cases b with
    | nil => cases h₁
    | cons y ys =>
      cases c with
      | nil => cases h₂
      | cons z zs =>
        simp only [charListCmp] at h₁ h₂ ⊢
        by_cases hxy : x.toNat < y.toNat
        · by_cases hyz : y.toNat < z.toNat
          · rw [if_pos (Nat.lt_trans hxy hyz)]
          · by_cases hzy : z.toNat < y.toNat
            · rw [if_neg hyz, if_pos hzy] at h₂; cases h₂
            · have : y.toNat = z.toNat := Nat.le_antisymm
                (Nat.le_of_not_lt hzy) (Nat.le_of_not_lt hyz)
              rw [if_pos (this ▸ hxy)]
        · by_cases hyx : y.toNat < x.toNat
          · rw [if_neg hxy, if_pos hyx] at h₁; cases h₁
          · have hxyeq : x.toNat = y.toNat := Nat.le_antisymm
              (Nat.le_of_not_lt hyx) (Nat.le_of_not_lt hxy)
            rw [if_neg hxy, if_neg hyx] at h₁
            by_cases hyz : y.toNat < z.toNat
            · rw [if_pos (hxyeq ▸ hyz)]
            · by_cases hzy : z.toNat < y.toNat
              · rw [if_neg hyz, if_pos hzy] at h₂; cases h₂
              · rw [if_neg hyz, if_neg hzy] at h₂
                rw [if_neg (hxyeq ▸ hyz), if_neg (hxyeq ▸ hzy)]
                exact ih h₁ h₂

theorem strCmp_eq_iff (a b : String) : strCmp a b = .eq ↔ a = b := by
  rw [strCmp, charListCmp_eq_iff]
  constructor
  · intro h
    cases a; cases b
    exact congrArg String.mk h
  · intro h; rw [h]

theorem strCmp_self (a : String) : strCmp a a = .eq :=
  (strCmp_eq_iff a a).mpr rfl

theorem strCmp_gt_iff (a b : String) :
    strCmp a b = .gt ↔ strCmp b a = .lt :=
  charListCmp_gt_iff a.data b.data

theorem strCmp_lt_trans {a b c : String}
    (h₁ : strCmp a b = .lt) (h₂ : strCmp b c = .lt) :
    strCmp a c = .lt :=
  charListCmp_lt_trans h₁ h₂

/-- Trichotomy: a comparison that is neither `lt` nor `gt` is an
equality. -/
theorem strCmp_not_lt_not_gt {a b : String}
    (h₁ : strCmp a b ≠ .lt) (h₂ : strCmp a b ≠ .gt) : a = b := by
  have := strCmp_eq_iff a b
  cases h : strCmp a b with
  | lt => exact absurd h h₁
  | gt => exact absurd h h₂
  | eq => exact (this).mp h

theorem strCmp_lt_irrefl (a : String) : strCmp a a ≠ .lt := by
  rw [strCmp_self]; intro h; cases h

/-! ## Search-tree lemmas -/

theorem treeAllB_iff (p : String → Bool) (t : Tree) :
    treeAllB p t = true ↔ ∀ v ∈ inorder t, p v = true := by
  induction t with
  | leaf => simp [treeAllB, inorder]
  | node l x r ihl ihr =>
    simp only [treeAllB, inorder, Bool.and_eq_true, ihl, ihr,
      List.mem_append, List.mem_cons]
    constructor
    · rintro ⟨⟨hx, hll⟩, hrr⟩ v hv
      rcases hv with hv | rfl | hv
      · exact hll v hv
      · exact hx
      · exact hrr v hv
    · intro hv
      exact ⟨⟨hv x (Or.inr (Or.inl rfl)),
        fun v hvv => hv v (Or.inl hvv)⟩,
        fun v hvv => hv v (Or.inr (Or.inr hvv))⟩

theorem inorder_eq_nil_iff (t : Tree) : inorder t = [] ↔ t = .leaf := by
  cases t <;> simp [inorder]

theorem minNode_eq_head : ∀ t : Tree, minNode t = (inorder t).head? := by
  intro t
  induction t with
  | leaf => rfl
  | node l x r ihl ihr =>
    cases l with
    | leaf => simp [minNode, inorder]
    | node l₁ x₁ r₁ =>
      rw [show minNode (.node (.node l₁ x₁ r₁) x r) =
        minNode (.node l₁ x₁ r₁) from rfl, ihl,
        show inorder (.node (.node l₁ x₁ r₁) x r) =
          inorder (.node l₁ x₁ r₁) ++ x :: inorder r from rfl,
        List.head?_append]
      have hne : inorder (.node l₁ x₁ r₁) ≠ [] := by
        simp [inorder]
      cases hI : inorder (.node l₁ x₁ r₁) with
      | nil => exact absurd hI hne
      | cons a t => rfl

theorem pairwise_inorder_of_isBSTB {t : Tree} (h : isBSTB t = true) :
    (inorder t).Pairwise (fun a b => strCmp a b = .lt) := by
  induction t with
  | leaf => simp [inorder]
  | node l x r ihl ihr =>
    rw [isBSTB] at h
    simp only [Bool.and_eq_true] at h
    obtain ⟨⟨⟨hl, hr⟩, hall_l⟩, hall_r⟩ := h
    rw [inorder, List.pairwise_append]
    refine ⟨ihl hl, ?_, ?_⟩
    · rw [List.pairwise_cons]
      refine ⟨fun b hb =>
        of_decide_eq_true ((treeAllB_iff _ _).mp hall_r b hb), ihr hr⟩
    · intro a ha b hb
      have hax : strCmp a x = .lt :=
        of_decide_eq_true ((treeAllB_iff _ _).mp hall_l a ha)
      rcases List.mem_cons.mp hb with rfl | hb'
      · exact hax
      · exact strCmp_lt_trans hax
          (of_decide_eq_true ((treeAllB_iff _ _).mp hall_r b hb'))

theorem nodup_inorder_of_isBSTB {t : Tree} (h : isBSTB t = true) :
    (inorder t).Nodup :=
  (pairwise_inorder_of_isBSTB h).imp (fun hab he =>
    absurd (he ▸ hab) (strCmp_lt_irrefl _))

theorem findSuccessor_eq {t : Tree} (hb : isBSTB t = true)
    (hkey : String) (acc : Option String) :
    findSuccessor strCmp t hkey acc =
      match (inorder t).find? (fun d => decide (strCmp hkey d ≠ .gt)) with
      | some d => some d
      | none => acc := by
  induction t generalizing acc with
  | leaf => rfl
  | node l x r ihl ihr =>
    rw [isBSTB] at hb
    simp only [Bool.and_eq_true] at hb
    obtain ⟨⟨⟨hl, hr⟩, hall_l⟩, hall_r⟩ := hb
    have hmem_l : ∀ a ∈ inorder l, strCmp a x = .lt := fun a ha =>
      of_decide_eq_true ((treeAllB_iff _ _).mp hall_l a ha)
    have hmem_r : ∀ a ∈ inorder r, strCmp x a = .lt := fun a ha =>
      of_decide_eq_true ((treeAllB_iff _ _).mp hall_r a ha)
    rw [show inorder (.node l x r) = inorder l ++ x :: inorder r from rfl]
    by_cases hx : x = hkey
    · rw [show findSuccessor strCmp (.node l x r) hkey acc = some x from
        by rw [findSuccessor, if_pos hx]]
      have hfl : (inorder l).find?
          (fun d => decide (strCmp hkey d ≠ .gt)) = none := by
        rw [List.find?_eq_none]
        intro a ha
        have : strCmp hkey a = .gt :=
          (strCmp_gt_iff hkey a).mpr (hx ▸ hmem_l a ha)
        simp [this]
      have hPx : decide (strCmp hkey x ≠ .gt) = true := by
        subst hx
        rw [strCmp_self]
        simp
      rw [List.find?_append, hfl, Option.none_or,
        @List.find?_cons_of_pos String
          (fun d => decide (strCmp hkey d ≠ Ordering.gt)) x
          (inorder r) hPx]
    · by_cases hgt : strCmp x hkey = .gt
      · rw [show findSuccessor strCmp (.node l x r) hkey acc =
          findSuccessor strCmp l hkey (some x) from
          by rw [findSuccessor, if_neg hx, if_pos hgt]]
        rw [ihl hl (some x)]
        have hPx : decide (strCmp hkey x ≠ .gt) = true := by
          have : strCmp hkey x = .lt := (strCmp_gt_iff x hkey).mp hgt
          simp [this]
        rw [List.find?_append,
          @List.find?_cons_of_pos String
            (fun d => decide (strCmp hkey d ≠ Ordering.gt)) x
            (inorder r) hPx]
        cases hfi : (inorder l).find?
            (fun d => decide (strCmp hkey d ≠ .gt)) <;> rfl
      · have hlt : strCmp x hkey = .lt := by
          cases hc : strCmp x hkey with
          | lt => rfl
          | eq => exact absurd ((strCmp_eq_iff x hkey).mp hc) hx
          | gt => exact absurd hc hgt
        rw [show findSuccessor strCmp (.node l x r) hkey acc =
          findSuccessor strCmp r hkey acc from
          by rw [findSuccessor, if_neg hx, if_neg hgt]]
        rw [ihr hr acc]
        have hfl : (inorder l).find?
            (fun d => decide (strCmp hkey d ≠ .gt)) = none := by
          rw [List.find?_eq_none]
          intro a ha
          have : strCmp hkey a = .gt :=
            (strCmp_gt_iff hkey a).mpr (strCmp_lt_trans (hmem_l a ha) hlt)
          simp [this]
        have hPx : decide (strCmp hkey x ≠ .gt) = false := by
          have : strCmp hkey x = .gt := (strCmp_gt_iff hkey x).mpr hlt
          simp [this]
        rw [List.find?_append, hfl, Option.none_or,
          @List.find?_cons_of_neg String
            (fun d => decide (strCmp hkey d ≠ Ordering.gt)) x
            (inorder r) (by simp [hPx])]

theorem deleteNode_spec :
    ∀ t : Tree, isBSTB t = true → ∀ v : String,
      isBSTB (deleteNode strCmp t v) = true ∧
      inorder (deleteNode strCmp t v) = (inorder t).erase v := by
  intro t
  induction t with
  | leaf => exact fun _ v => ⟨rfl, rfl⟩
  | node l x r ihl ihr =>
    intro h v
    rw [isBSTB] at h
    simp only [Bool.and_eq_true] at h
    obtain ⟨⟨⟨hl, hr⟩, hall_l⟩, hall_r⟩ := h
    have hmem_l : ∀ a ∈ inorder l, strCmp a x = .lt := fun a ha =>
      of_decide_eq_true ((treeAllB_iff _ _).mp hall_l a ha)
    have hmem_r : ∀ a ∈ inorder r, strCmp x a = .lt := fun a ha =>
      of_decide_eq_true ((treeAllB_iff _ _).mp hall_r a ha)
    have hIeq : inorder (.node l x r) = inorder l ++ x :: inorder r := rfl
    cases hcmp : strCmp v x with
    | lt =>
      have hvx : v ≠ x := fun he =>
        absurd (he ▸ hcmp) (strCmp_lt_irrefl x)
      have hvr : v ∉ inorder r := fun hm =>
        absurd (strCmp_lt_trans hcmp (hmem_r v hm)) (strCmp_lt_irrefl v)
      obtain ⟨ihb, ihi⟩ := ihl hl v
      have hres : deleteNode strCmp (.node l x r) v =
          .node (deleteNode strCmp l v) x r := by
        simp only [deleteNode, hcmp]
      rw [hres]
      constructor
      · rw [isBSTB]
        simp only [Bool.and_eq_true]
        refine ⟨⟨⟨ihb, hr⟩, ?_⟩, hall_r⟩
        rw [treeAllB_iff]
        intro a ha
        rw [ihi] at ha
        exact (treeAllB_iff _ _).mp hall_l a (List.mem_of_mem_erase ha)
      · rw [show inorder (.node (deleteNode strCmp l v) x r) =
          inorder (deleteNode strCmp l v) ++ x :: inorder r from rfl,
          ihi, hIeq]
        by_cases hmem : v ∈ inorder l
        · rw [List.erase_append_left _ hmem]
        · rw [List.erase_append_right _ hmem,
            List.erase_of_not_mem hmem, List.erase_of_not_mem
              (by simp [hvx, hvr] : v ∉ x :: inorder r)]
    | gt =>
      have hxv : strCmp x v = .lt := (strCmp_gt_iff v x).mp hcmp
      have hvx : v ≠ x := fun he => by
        rw [he] at hxv
        exact absurd hxv (strCmp_lt_irrefl x)
      have hvl : v ∉ inorder l := fun hm => by
        rw [hmem_l v hm] at hcmp
        cases hcmp
      obtain ⟨ihb, ihi⟩ := ihr hr v
      have hres : deleteNode strCmp (.node l x r) v =
          .node l x (deleteNode strCmp r v) := by
        simp only [deleteNode, hcmp]
      rw [hres]
      constructor
      · rw [isBSTB]
        simp only [Bool.and_eq_true]
        refine ⟨⟨⟨hl, ihb⟩, hall_l⟩, ?_⟩
        rw [treeAllB_iff]
        intro a ha
        rw [ihi] at ha
        exact (treeAllB_iff _ _).mp hall_r a (List.mem_of_mem_erase ha)
      · rw [show inorder (.node l x (deleteNode strCmp r v)) =
          inorder l ++ x :: inorder (deleteNode strCmp r v) from rfl,
          ihi, hIeq, List.erase_append_right _ hvl, List.erase_cons,
          if_neg (by simp [Ne.symm hvx])]
    | eq =>
      have hvx : v = x := (strCmp_eq_iff v x).mp hcmp
      subst hvx
      have hxl : v ∉ inorder l := fun hm =>
        absurd (hmem_l v hm) (strCmp_lt_irrefl v)
      by_cases hLleaf : l = Tree.leaf
      · subst hLleaf
        have hres : deleteNode strCmp (.node .leaf v r) v = r := by
          simp [deleteNode, hcmp]
        rw [hres]
        refine ⟨hr, ?_⟩
        rw [show inorder (Tree.node .leaf v r) = v :: inorder r from rfl,
          List.erase_cons_head]
      · by_cases hRleaf : r = Tree.leaf
        · subst hRleaf
          have hres : deleteNode strCmp (.node l v .leaf) v = l := by
            simp [deleteNode, hcmp, hLleaf]
          rw [hres]
          refine ⟨hl, ?_⟩
          rw [show inorder (Tree.node l v .leaf) =
            inorder l ++ [v] from rfl,
            List.erase_append_right _ hxl, List.erase_cons_head,
            List.append_nil]
        · obtain ⟨sv, tl, hir⟩ : ∃ sv tl, inorder r = sv :: tl := by
            cases hI : inorder r with
            | nil => exact absurd ((inorder_eq_nil_iff r).mp hI) hRleaf
            | cons a t => exact ⟨a, t, rfl⟩
          have hmin : minNode r = some sv := by
            rw [minNode_eq_head, hir]
            rfl
          have hres : deleteNode strCmp (.node l v r) v =
              .node l sv (deleteNode strCmp r sv) := by
            simp only [deleteNode, hcmp, if_neg hLleaf, if_neg hRleaf,
              hmin, Option.getD_some]
          obtain ⟨ihb, ihi⟩ := ihr hr sv
          have hsv_mem : sv ∈ inorder r := by
            rw [hir]
            exact List.mem_cons_self _ _
          have hxsv : strCmp v sv = .lt := hmem_r sv hsv_mem
          have hsv_tl : ∀ b ∈ tl, strCmp sv b = .lt := by
            have hPir := pairwise_inorder_of_isBSTB hr
            rw [hir] at hPir
            exact (List.pairwise_cons.mp hPir).1
          have htl : inorder (deleteNode strCmp r sv) = tl := by
            rw [ihi, hir, List.erase_cons_head]
          rw [hres]
          constructor
          · rw [isBSTB]
            simp only [Bool.and_eq_true]
            refine ⟨⟨⟨hl, ihb⟩, ?_⟩, ?_⟩
            · rw [treeAllB_iff]
              intro a ha
              simp [strCmp_lt_trans (hmem_l a ha) hxsv]
            · rw [treeAllB_iff]
              intro a ha
              rw [htl] at ha
              simp [hsv_tl a ha]
          · rw [show inorder (.node l sv (deleteNode strCmp r sv)) =
              inorder l ++ sv :: inorder (deleteNode strCmp r sv) from rfl,
              htl,
              show inorder (.node l v r) =
                inorder l ++ v :: inorder r from rfl,
              List.erase_append_right _ hxl, List.erase_cons_head, hir]

theorem mapGet_of_mapHas_false {β : Type} {m : List (String × β)}
    {k : String} (h : mapHas m k = false) : mapGet m k = none := by
  induction m with
  | nil => rfl
  | cons p rest ih =>
    rw [mapHas] at h
    simp only [List.any_cons, Bool.or_eq_false_iff] at h
    rw [mapGet, List.find?]
    rw [h.1]
    exact ih (by rw [mapHas]; exact h.2)

theorem mapGet_isSome_of_mapHas {β : Type} {m : List (String × β)}
    {k : String} (h : mapHas m k = true) : (mapGet m k).isSome = true := by
  induction m with
  | nil => cases h
  | cons p rest ih =>
    rw [mapHas, List.any_cons] at h
    rw [mapGet, List.find?]
    cases hk : decide (p.1 = k) with
    | true => rfl
    | false =>
      rw [hk] at h
      simp only [Bool.false_or] at h
      exact ih h

/-! ## Routing stability lemmas -/

theorem find?_filter_some {α : Type} (p q : α → Bool) :
    ∀ (l : List α) (d : α), l.find? p = some d → q d = true →
      (l.filter q).find? p = some d := by
  intro l
  induction l with
  | nil => intro d h; cases h
  | cons a t ih =>
    intro d h hq
    rw [List.find?] at h
    cases hpa : p a with
    | true =>
      rw [hpa] at h
      injection h with h
      subst h
      rw [List.filter_cons, if_pos hq, List.find?_cons_of_pos _ hpa]
    | false =>
      rw [hpa] at h
      rw [List.filter_cons]
      split
      · rw [List.find?_cons_of_neg _ (by simp [hpa])]
        exact ih d h hq
      · exact ih d h hq

theorem find?_filter_none {α : Type} (p q : α → Bool) (l : List α)
    (h : l.find? p = none) : (l.filter q).find? p = none := by
  rw [List.find?_eq_none] at h ⊢
  intro x hx
  exact h x (List.mem_of_mem_filter hx)

/-- The spec-side routing target is stable under removing unchosen
digests: if `specRoute` picks `d` and `d` survives the filter, the
filtered list routes to the same `d`. -/
theorem specRoute_filter (q : String → Bool) (L : List String)
    (hk d : String) (hd : specRoute L hk = some d) (hq : q d = true) :
    specRoute (L.filter q) hk = some d := by
  rw [specRoute] at hd ⊢
  split at hd
  · rename_i e hf
    injection hd with hd
    subst hd
    rw [find?_filter_some _ q L e hf hq]
  · rename_i hf
    rw [find?_filter_none _ q L hf]
    cases L with
    | nil => cases hd
    | cons a t =>
      have ha : a = d := by
        rw [List.head?] at hd
        injection hd
      subst ha
      rw [List.filter_cons, if_pos hq]
      rfl

/-- `getNode` on a search tree computes exactly the spec's successor
digest (§4.2): the smallest stored digest `≥ hash(key)`, or the minimum
stored digest when none is. -/
theorem getNode_eq_specRoute {T : Type} (cfg : Config T) (s : Ring T)
    (k : String) (hcmp : cfg.cmp = strCmp)
    (hbst : isBSTB s.root = true) (hne : s.root ≠ .leaf) :
    ∃ d, specRoute (inorder s.root) (cfg.hashFn k) = some d ∧
      getNode cfg s k = mapGet s.nodesMap d := by
  simp only [getNode, hcmp]
  rw [if_neg hne, findSuccessor_eq hbst (cfg.hashFn k) none]
  cases hf : (inorder s.root).find?
      (fun d => decide (strCmp (cfg.hashFn k) d ≠ .gt)) with
  | some d =>
    refine ⟨d, ?_, ?_⟩
    · rw [specRoute, hf]
    · rfl
  | none =>
    have hnil : inorder s.root ≠ [] := fun hh =>
      hne ((inorder_eq_nil_iff _).mp hh)
    cases hI : inorder s.root with
    | nil => exact absurd hI hnil
    | cons a t =>
      rw [hI] at hf
      refine ⟨a, ?_, ?_⟩
      · rw [specRoute, hf]
        rfl
      · rw [minNode_eq_head, hI]
        rfl

/-! ## Claim C5 -/

/-- C5 (amended): for states whose position index is a valid search tree
with every stored digest bound in the digest→node table (the §3
lock-step invariant), under the default comparator: an empty ring yields
absence, and a non-empty ring routes every key to the (present) node
bound to the smallest stored digest `≥ hash(k)`, or to the minimum
stored digest when no stored digest is `≥ hash(k)` — `specRoute` is that
spec-side description. -/
theorem C5_getNode_successor {T : Type} (cfg : Config T) (s : Ring T)
    (k : String) (hcmp : cfg.cmp = strCmp)
    (hbst : isBSTB s.root = true)
    (hlock : ∀ d ∈ inorder s.root, mapHas s.nodesMap d = true) :
    (s.root = .leaf → getNode cfg s k = none) ∧
    (s.root ≠ .leaf →
      ∃ d, specRoute (inorder s.root) (cfg.hashFn k) = some d ∧
        getNode cfg s k = mapGet s.nodesMap d ∧
        (getNode cfg s k).isSome = true) := by
  constructor
  · intro hleaf
    rw [getNode, if_pos hleaf]
  · intro hne
    obtain ⟨d, hspec, hget⟩ := getNode_eq_specRoute cfg s k hcmp hbst hne
    have hdmem : d ∈ inorder s.root := by
      have hspec' := hspec
      rw [specRoute] at hspec'
      split at hspec'
      · rename_i e hf
        injection hspec' with hspec'
        subst hspec'
        exact List.mem_of_find?_eq_some hf
      · rename_i hf
        cases hI : inorder s.root with
        | nil =>
          rw [hI] at hspec'
          cases hspec'
        | cons a t =>
          rw [hI] at hspec'
          have ha : a = d := by
            rw [List.head?] at hspec'
            injection hspec'
          subst ha
          exact List.mem_cons_self _ _
    refine ⟨d, hspec, hget, ?_⟩
    rw [hget]
    exact mapGet_isSome_of_mapHas (hlock d hdmem)

/-- Witness for C5 at a concrete input: the two-node ring `sW2` routes
`"k0"` to the node bound to its successor digest, and the result is
present. -/
theorem C5_witness :
    ∃ d, specRoute (inorder sW2.root) (cfgW.hashFn "k0") = some d ∧
      getNode cfgW sW2 "k0" = mapGet sW2.nodesMap d ∧
      (getNode cfgW sW2 "k0").isSome = true :=
  (C5_getNode_successor cfgW sW2 "k0" rfl (by decide) (by decide)).2
    (by decide)

/-! ## Repair-loop exit lemmas -/

theorem repairLoop_no_pairs {T : Type} [Inhabited T] (cfg : Config T)
    (fuel : Nat) (s : Ring T) (h : findAdjacentReplicas cfg s = []) :
    (repairLoop cfg fuel s).1 = s := by
  cases fuel with
  | zero => rfl
  | succ n => simp only [repairLoop, h]

theorem repairLoop_done_no_pairs {T : Type} [Inhabited T]
    (cfg : Config T) :
    ∀ (fuel : Nat) (s s' : Ring T),
      repairLoop cfg fuel s = (s', .done) →
      findAdjacentReplicas cfg s' = [] := by
  intro fuel
  induction fuel with
  | zero =>
    intro s s' h
    simp only [repairLoop, Prod.mk.injEq] at h
    cases h.2
  | succ n ih =>
    intro s s' h
    simp only [repairLoop] at h
    split at h
    · rename_i hadj
      simp only [Prod.mk.injEq] at h
      rw [← h.1]
      exact hadj
    · rename_i pair rest hadj
      split at h
      · simp only [Prod.mk.injEq] at h
        cases h.2
      · split at h
        · simp only [Prod.mk.injEq] at h
          cases h.2
        · exact ih _ _ h

theorem repairLoop_not_skipped {T : Type} [Inhabited T] (cfg : Config T) :
    ∀ (fuel : Nat) (s : Ring T),
      (repairLoop cfg fuel s).2 ≠ .skipped := by
  intro fuel
  induction fuel with
  | zero => intro s h; cases h
  | succ n ih =>
    intro s
    simp only [repairLoop]
    split
    · intro h; cases h
    · split
      · intro h; cases h
      · split
        · intro h; cases h
        · exact ih _

theorem repairLoop_gaveUp_inv {T : Type} [Inhabited T] (cfg : Config T) :
    ∀ (fuel : Nat) (s s' : Ring T),
      repairLoop cfg fuel s = (s', .gaveUp) →
      ∃ pair rest, findAdjacentReplicas cfg s' = pair :: rest ∧
        findRelocationIndex cfg (getOrderedNodes cfg s')
          pair.indices.1 pair.indices.2 = none := by
  intro fuel
  induction fuel with
  | zero =>
    intro s s' h
    simp only [repairLoop, Prod.mk.injEq] at h
    cases h.2
  | succ n ih =>
    intro s s' h
    simp only [repairLoop] at h
    split at h
    · simp only [Prod.mk.injEq] at h
      cases h.2
    · rename_i pair rest hadj
      split at h
      · rename_i hrel
        simp only [Prod.mk.injEq] at h
        refine ⟨pair, rest, ?_, ?_⟩
        · rw [← h.1]; exact hadj
        · rw [← h.1]; exact hrel
      · split at h
        · simp only [Prod.mk.injEq] at h
          cases h.2
        · exact ih _ _ h

/-- A completed (non-`outOfFuel`) repair pass leaves a state on which a
re-run of `fixAdjacentReplicas` performs no mutation (idempotence of
repair). -/
theorem fixAdjacent_fixpoint {T : Type} [Inhabited T] (cfg : Config T)
    {fuel₀ : Nat} {s₀ s : Ring T} {e₀ : RepairExit}
    (h : fixAdjacentReplicas cfg fuel₀ s₀ = (s, e₀))
    (hn : e₀ ≠ .outOfFuel) (fuel : Nat) :
    (fixAdjacentReplicas cfg fuel s).1 = s := by
  rw [fixAdjacentReplicas] at h
  split at h
  · rename_i hu
    have hs : s = s₀ := by
      simp only [Prod.mk.injEq] at h
      exact h.1.symm
    subst hs
    rw [fixAdjacentReplicas, if_pos hu]
  · cases e₀ with
    | skipped => exact absurd (congrArg Prod.snd h) (repairLoop_not_skipped cfg _ _)
    | outOfFuel => exact absurd rfl hn
    | done =>
      have hp := repairLoop_done_no_pairs cfg _ _ _ h
      rw [fixAdjacentReplicas]
      split
      · rfl
      · exact repairLoop_no_pairs cfg fuel s hp
    | gaveUp =>
      obtain ⟨pair, rest, hadj, hrel⟩ := repairLoop_gaveUp_inv cfg _ _ _ h
      rw [fixAdjacentReplicas]
      split
      · rfl
      · cases fuel with
        | zero => rfl
        | succ n => simp only [repairLoop, hadj, hrel]

/-- A normally returning repair pass that did not give up leaves no
adjacent pairs, provided at least two distinct physical nodes remain. -/
theorem fixAdjacent_normal_exit {T : Type} [Inhabited T] (cfg : Config T)
    {fuel : Nat} {s₀ s' : Ring T} {e : RepairExit}
    (h : fixAdjacentReplicas cfg fuel s₀ = (s', e))
    (h2 : 2 ≤ getUniqueNodeCount cfg s') (h3 : e ≠ .gaveUp)
    (h4 : e ≠ .outOfFuel) : findAdjacentReplicas cfg s' = [] := by
  rw [fixAdjacentReplicas] at h
  split at h
  · rename_i hu
    simp only [Prod.mk.injEq] at h
    rw [h.1] at hu
    omega
  · cases e with
    | skipped => exact absurd (congrArg Prod.snd h) (repairLoop_not_skipped cfg _ _)
    | gaveUp => exact absurd rfl h3
    | outOfFuel => exact absurd rfl h4
    | done => exact repairLoop_done_no_pairs cfg _ _ _ h

/-! ## Claim C2 -/

/-- C2: with at least two distinct physical nodes (by `nodeToString`) in
the resulting ring, immediately after a returning `addNode` or
`removeNode` call, `findAdjacentReplicas()` returns the empty list,
except when the repair loop stopped because no non-adjacent relocation
index existed (`RepairExit.gaveUp`, the `break` of the source).  An
`outOfFuel` exit models a call of the source that has not returned, so
the two excluded exits are exactly the claim's caveats. -/
theorem C2_no_adjacency_after_mutation {T : Type} [Inhabited T]
    (cfg : Config T) (fuel : Nat) (s : Ring T) (n x : T) (sp : Bool) :
    (∀ s' e, addNode cfg fuel s n sp = (s', e) →
      2 ≤ getUniqueNodeCount cfg s' → e ≠ .gaveUp → e ≠ .outOfFuel →
      findAdjacentReplicas cfg s' = []) ∧
    (∀ s' e, removeNode cfg fuel s x = (s', e) →
      2 ≤ getUniqueNodeCount cfg s' → e ≠ .gaveUp → e ≠ .outOfFuel →
      findAdjacentReplicas cfg s' = []) := by
  constructor
  · intro s' e h h2 h3 h4
    exact fixAdjacent_normal_exit cfg h h2 h3 h4
  · intro s' e h h2 h3 h4
    exact fixAdjacent_normal_exit cfg h h2 h3 h4

/-- Witness for C2 at a concrete input: adding `"B"` to the one-node
ring `{A}` returns `done` with two distinct nodes, and
`findAdjacentReplicas` is empty afterwards. -/
theorem C2_witness :
    findAdjacentReplicas cfgW sW2 = [] :=
  (C2_no_adjacency_after_mutation cfgW 10 sW1 "B" "B" false).1 sW2
    RepairExit.done (by decide) (by decide) (by decide) (by decide)

/-! ## Claim C1 (minimal disruption) -/

theorem specRoute_mem (L : List String) (hk d : String)
    (h : specRoute L hk = some d) : d ∈ L := by
  rw [specRoute] at h
  split at h
  · rename_i e hf
    injection h with h
    subst h
    exact List.mem_of_find?_eq_some hf
  · cases L with
    | nil => cases h
    | cons a t =>
      have ha : a = d := by
        rw [List.head?] at h
        injection h
      subst ha
      exact List.mem_cons_self _ _

theorem mapGet_unique {β : Type} :
    ∀ (m : List (String × β)) (k : String) (v : β) (p : String × β),
      (m.map (·.1)).Nodup → mapGet m k = some v → p ∈ m → p.1 = k →
      p.2 = v := by
  intro m
  induction m with
  | nil => intro _ _ p _ _ h; cases h
  | cons q rest ih =>
    intro k v p hnd hget hp hpk
    rw [List.map_cons, List.nodup_cons] at hnd
    rw [mapGet, List.find?] at hget
    cases hqk : decide (q.1 = k) with
    | true =>
      rw [hqk] at hget
      rcases List.mem_cons.mp hp with rfl | hp'
      · injection hget
      · exfalso
        apply hnd.1
        rw [of_decide_eq_true hqk, ← hpk]
        exact List.mem_map_of_mem _ hp'
    | false =>
      rw [hqk] at hget
      rcases List.mem_cons.mp hp with rfl | hp'
      · exact absurd hpk (of_decide_eq_false hqk)
      · exact ih k v p hnd.2 hget hp' hpk

theorem mapGet_filter {β : Type} (q : String × β → Bool) :
    ∀ (m : List (String × β)) (k : String) (v : β),
      mapGet m k = some v → q (k, v) = true →
      mapGet (m.filter q) k = some v := by
  intro m
  induction m with
  | nil => intro k v h; intro _; cases h
  | cons p rest ih =>
    intro k v h hq
    rw [mapGet, List.find?] at h
    cases hk : decide (p.1 = k) with
    | true =>
      rw [hk] at h
      injection h with h
      have hp : p = (k, v) := by
        obtain ⟨p1, p2⟩ := p
        simp only at h
        have h1 : p1 = k := of_decide_eq_true hk
        rw [h1, h]
      subst hp
      rw [List.filter_cons, if_pos hq, mapGet,
        @List.find?_cons_of_pos _ (fun p => decide (p.1 = k)) (k, v)
          (rest.filter q) hk]
      rfl
    | false =>
      rw [hk] at h
      rw [List.filter_cons]
      split
      · have : mapGet (p :: rest.filter q) k =
            mapGet (rest.filter q) k := by
          rw [mapGet, mapGet, List.find?_cons_of_neg _ (by simp [hk])]
        rw [this]
        exact ih k v h hq
      · exact ih k v h hq

theorem removeFold_components {T : Type} (cfg : Config T) :
    ∀ (D : List String) (s : Ring T),
      D.foldl (fun st d =>
        (⟨deleteNode cfg.cmp st.root d, mapDelete st.nodesMap d,
          mapDelete st.virtualKeyMap d⟩ : Ring T)) s =
      ⟨D.foldl (fun t' d => deleteNode cfg.cmp t' d) s.root,
       D.foldl mapDelete s.nodesMap,
       D.foldl mapDelete s.virtualKeyMap⟩ := by
  intro D
  induction D with
  | nil =>
    intro s
    cases s
    rfl
  | cons d D ih =>
    intro s
    rw [List.foldl_cons]
    rw [ih]
    rfl

theorem foldl_deleteNode_spec :
    ∀ (D : List String) (t : Tree), isBSTB t = true →
      isBSTB (D.foldl (fun t' d => deleteNode strCmp t' d) t) = true ∧
      inorder (D.foldl (fun t' d => deleteNode strCmp t' d) t) =
        D.foldl (fun l v => l.erase v) (inorder t) := by
  intro D
  induction D with
  | nil => intro t ht; exact ⟨ht, rfl⟩
  | cons d D ih =>
    intro t ht
    obtain ⟨hb, hi⟩ := deleteNode_spec t ht d
    rw [List.foldl_cons, List.foldl_cons]
    obtain ⟨hb', hi'⟩ := ih (deleteNode strCmp t d) hb
    exact ⟨hb', by rw [hi', hi]⟩

theorem foldl_erase_eq_filter :
    ∀ (D : List String) (L : List String), L.Nodup →
      D.foldl (fun l v => l.erase v) L =
        L.filter (fun a => decide (a ∉ D)) := by
  intro D
  induction D with
  | nil =>
    intro L _
    simp
  | cons d D ih =>
    intro L hnd
    rw [List.foldl_cons]
    rw [ih (L.erase d) (hnd.erase d),
      List.Nodup.erase_eq_filter hnd d, List.filter_filter]
    congr 1
    funext a
    by_cases h1 : a = d
    · subst h1
      simp
    · by_cases h2 : a ∈ D <;> simp [h1, h2]

theorem foldl_mapDelete_eq_filter {β : Type} :
    ∀ (D : List String) (m : List (String × β)),
      D.foldl mapDelete m = m.filter (fun p => decide (p.1 ∉ D)) := by
  intro D
  induction D with
  | nil =>
    intro m
    simp
  | cons d D ih =>
    intro m
    rw [List.foldl_cons,
      show mapDelete m d = m.filter (fun p => decide (¬ p.1 = d)) from
        rfl,
      ih, List.filter_filter]
    congr 1
    funext p
    by_cases h1 : p.1 = d
    · simp [h1]
    · by_cases h2 : p.1 ∈ D <;> simp [h1, h2]

/-- C1 (amended): removing node `X` changes the routing only of keys
previously routed to `X`, provided the adjacency-repair pass triggered
by `removeNode` performs no relocation (`hfix`; repair does relocate in
general, see the counterexample).  Stated for states satisfying the §3
invariants (valid search tree, duplicate-free table keys) under the
default comparator: any key `k` previously routed to a node `y` whose
`nodeToString` differs from `X`'s is routed to the same `y`
afterwards. -/
theorem C1_minimal_disruption {T : Type} [Inhabited T] (cfg : Config T)
    (fuel : Nat) (s : Ring T) (x : T) (k : String) (y : T)
    (hcmp : cfg.cmp = strCmp)
    (hbst : isBSTB s.root = true)
    (hnd : (s.nodesMap.map (·.1)).Nodup)
    (hfix : (fixAdjacentReplicas cfg fuel (removePhase cfg s x)).1 =
      removePhase cfg s x)
    (hy : getNode cfg s k = some y)
    (hne : cfg.nodeToString y ≠ cfg.nodeToString x) :
    getNode cfg ((removeNode cfg fuel s x).1) k = some y := by
  rw [removeNode, hfix, removePhase,
    removeFold_components cfg (digestsToRemove cfg s x) s, hcmp]
  have hroot : s.root ≠ Tree.leaf := by
    intro hh
    rw [getNode, if_pos hh] at hy
    cases hy
  obtain ⟨d₀, hspec, hget⟩ := getNode_eq_specRoute cfg s k hcmp hbst hroot
  have hd0 : mapGet s.nodesMap d₀ = some y := by
    rw [← hget]
    exact hy
  have hd0D : d₀ ∉ digestsToRemove cfg s x := by
    intro hmem
    rw [digestsToRemove] at hmem
    obtain ⟨p, hp, hp1⟩ := List.mem_map.mp hmem
    obtain ⟨hpmem, hpts⟩ := List.mem_filter.mp hp
    have hpv : p.2 = y := mapGet_unique s.nodesMap d₀ y p hnd hd0 hpmem hp1
    rw [hpv] at hpts
    exact hne (of_decide_eq_true hpts)
  obtain ⟨hbst', hinor⟩ :=
    foldl_deleteNode_spec (digestsToRemove cfg s x) s.root hbst
  have hinor' :
      inorder ((digestsToRemove cfg s x).foldl
        (fun t' d => deleteNode strCmp t' d) s.root) =
      (inorder s.root).filter
        (fun a => decide (a ∉ digestsToRemove cfg s x)) := by
    rw [hinor,
      foldl_erase_eq_filter (digestsToRemove cfg s x) _
        (nodup_inorder_of_isBSTB hbst)]
  have hspec' :
      specRoute ((inorder s.root).filter
        (fun a => decide (a ∉ digestsToRemove cfg s x)))
        (cfg.hashFn k) = some d₀ :=
    specRoute_filter _ _ _ _ hspec (by simp [hd0D])
  have hd0mem' := specRoute_mem _ _ _ hspec'
  have hroot' :
      (digestsToRemove cfg s x).foldl
        (fun t' d => deleteNode strCmp t' d) s.root ≠ Tree.leaf := by
    intro hh
    rw [← hinor', hh] at hd0mem'
    cases hd0mem'
  obtain ⟨d₁, hspec1, hget1⟩ := getNode_eq_specRoute cfg
    ⟨(digestsToRemove cfg s x).foldl
      (fun t' d => deleteNode strCmp t' d) s.root,
     (digestsToRemove cfg s x).foldl mapDelete s.nodesMap,
     (digestsToRemove cfg s x).foldl mapDelete s.virtualKeyMap⟩
    k hcmp hbst' hroot'
  rw [show (⟨(digestsToRemove cfg s x).foldl
      (fun t' d => deleteNode strCmp t' d) s.root,
     (digestsToRemove cfg s x).foldl mapDelete s.nodesMap,
     (digestsToRemove cfg s x).foldl mapDelete s.virtualKeyMap⟩ :
      Ring T).root =
    (digestsToRemove cfg s x).foldl
      (fun t' d => deleteNode strCmp t' d) s.root from rfl,
    hinor', hspec'] at hspec1
  injection hspec1 with hspec1
  subst hspec1
  rw [hget1,
    show (⟨(digestsToRemove cfg s x).foldl
      (fun t' d => deleteNode strCmp t' d) s.root,
     (digestsToRemove cfg s x).foldl mapDelete s.nodesMap,
     (digestsToRemove cfg s x).foldl mapDelete s.virtualKeyMap⟩ :
      Ring T).nodesMap =
    (digestsToRemove cfg s x).foldl mapDelete s.nodesMap from rfl,
    foldl_mapDelete_eq_filter (digestsToRemove cfg s x) s.nodesMap]
  exact mapGet_filter _ s.nodesMap d₀ y hd0 (by simp [hd0D])

/-- Witness for C1 at a concrete input: removing `"B"` from the
two-node ring `{A, B}` (where the repair pass is a no-op) keeps the key
`"k0"`, previously routed to `"A"`, routed to `"A"`. -/
theorem C1_witness :
    getNode cfgW ((removeNode cfgW 10 sW2 "B").1) "k0" = some "A" :=
  C1_minimal_disruption cfgW 10 sW2 "B" "k0" "A" rfl (by decide)
    (by decide) (by decide) (by decide) (by decide)

/-! ## Claim C9 -/

/-- C9: removing a node whose `nodeToString` key matches no bound node
is a no-op on all three structures (and raises no error: the model is a
total function).  The second hypothesis states that `s` is a ring state
as produced by the API: either it has no adjacent replicas at all, or it
is the result state of a completed repair pass (every state reachable
through the constructor, `addNode` and `removeNode` satisfies one of
these, since each of those calls ends with a repair pass). -/
theorem C9_remove_absent_noop {T : Type} [Inhabited T] (cfg : Config T)
    (fuel : Nat) (s : Ring T) (x : T)
    (habsent : ∀ p ∈ s.nodesMap,
      cfg.nodeToString p.2 ≠ cfg.nodeToString x)
    (hstable : findAdjacentReplicas cfg s = [] ∨
      ∃ s₀ fuel₀ e₀, fixAdjacentReplicas cfg fuel₀ s₀ = (s, e₀) ∧
        e₀ ≠ .outOfFuel) :
    (removeNode cfg fuel s x).1 = s := by
  have hphase : removePhase cfg s x = s := by
    rw [removePhase, digestsToRemove]
    have : s.nodesMap.filter
        (fun p => decide (cfg.nodeToString p.2 = cfg.nodeToString x)) = [] := by
      rw [List.filter_eq_nil_iff]
      intro p hp
      simp only [decide_eq_true_eq]
      exact habsent p hp
    rw [this]
    rfl
  rw [removeNode, hphase]
  rcases hstable with hempty | ⟨s₀, fuel₀, e₀, hfix, hne⟩
  · rw [fixAdjacentReplicas]
    split
    · rfl
    · exact repairLoop_no_pairs cfg fuel s hempty
  · exact fixAdjacent_fixpoint cfg hfix hne fuel

/-- Witness for C9 at a concrete input: removing the absent node `"Z"`
from the two-node ring `{A, B}` leaves the state unchanged. -/
theorem C9_witness : (removeNode cfgW 10 sW2 "Z").1 = sW2 :=
  C9_remove_absent_noop cfgW 10 sW2 "Z" (by decide) (Or.inl (by decide))

/-! ## Claim C10 -/

/-- C10: `getNodeForRange({start, end})` returns absence (not an error;
the model is a total function into `Option`) when `end` is not bound in
the digest→node table, and returns the node bound to `end` regardless of
the `start` value. -/
theorem C10_getNodeForRange_end_only {T : Type} (cfg : Config T)
    (s : Ring T) (r : HRange) :
    (mapHas s.nodesMap r.stop = false → getNodeForRange cfg s r = none) ∧
    (∀ v, mapGet s.nodesMap r.stop = some v →
      ∀ st : String, getNodeForRange cfg s ⟨st, r.stop⟩ = some v) := by
  constructor
  · intro h
    rw [getNodeForRange]
    exact mapGet_of_mapHas_false h
  · intro v h st
    rw [getNodeForRange]
    exact h

/-- Witness for C10 at concrete inputs: an unbound end digest yields
absence; a bound end digest yields its node for any start. -/
theorem C10_witness :
    getNodeForRange cfgW sW2 ⟨"x", "7"⟩ = none ∧
    getNodeForRange cfgW sW2 ⟨"zzz", "1"⟩ = some "A" :=
  ⟨(C10_getNodeForRange_end_only cfgW sW2 ⟨"x", "7"⟩).1 (by decide),
   (C10_getNodeForRange_end_only cfgW sW2 ⟨"anything", "1"⟩).2 "A"
     (by decide) "zzz"⟩

/-! ## Claim C4 (collision handling defect) -/

/-- C4: evaluating the code at the failing input.  The virtual keys
`"A:0"` and `"B:0"` hash to the same digest `"1"`; after
`addNode("A")` the table binds `"1" ↦ A`, and `addNode("B")` silently
rebinds `"1" ↦ B` (the first binding is destroyed, the table shrinks to
a single entry) while the repair pass is skipped entirely
(`RepairExit.skipped`), so no rotation retry and no diagnostic is
triggered by the collision — contradicting the claim. -/
theorem C4_collision_silently_clobbers :
    sC4A.nodesMap = [("1", "A")] ∧
    sC4B.nodesMap = [("1", "B")] ∧
    (addNode cfg4 10 sC4A "B" false).2 = RepairExit.skipped := by
  decide

/-! ## Claim C3 (uncapped rotation search) -/

/-- If every rotation key's digest is already occupied, the rotation
`do…while` never exits: the model returns `none` for every fuel value,
i.e. the source loops forever. -/
theorem rotateSearch_none_of_hit {T : Type} [Inhabited T]
    (cfg : Config T) (s : Ring T) (node : T) (vk : String)
    (h : ∀ a : Nat,
      mapHas s.nodesMap (cfg.hashFn (vk ++ "_rotate" ++ toString a)) =
        true) :
    ∀ (fuel attempt : Nat),
      rotateSearch cfg s node vk attempt fuel = none := by
  intro fuel
  induction fuel with
  | zero => intro a; rfl
  | succ n ih =>
    intro a
    simp only [rotateSearch]
    rw [if_pos (Or.inl (h a))]
    exact ih (a + 1)

/-- A repair iteration whose first adjacent pair admits a relocation
index but whose rotation search always hits an occupied digest never
returns, for any fuel. -/
theorem repairLoop_stuck {T : Type} [Inhabited T] (cfg : Config T)
    (s : Ring T) (pair : AdjPair T) (rest : List (AdjPair T))
    (hadj : findAdjacentReplicas cfg s = pair :: rest)
    (j : Nat)
    (hrel : findRelocationIndex cfg (getOrderedNodes cfg s)
      pair.indices.1 pair.indices.2 = some j)
    (hhit : ∀ a : Nat,
      mapHas (mapDelete s.nodesMap
          ((getOrderedNodes cfg s).getD pair.indices.2 default).position)
        (cfg.hashFn
          (((mapGet s.virtualKeyMap
              ((getOrderedNodes cfg s).getD pair.indices.2
                default).position).getD "") ++
            "_rotate" ++ toString a)) = true) :
    ∀ fuel, (repairLoop cfg fuel s).2 = RepairExit.outOfFuel := by
  intro fuel
  cases fuel with
  | zero => rfl
  | succ n =>
    simp only [repairLoop, hadj, hrel]
    have hres := rotateSearch_none_of_hit cfg
      ⟨deleteNode cfg.cmp s.root
          ((getOrderedNodes cfg s).getD pair.indices.2 default).position,
        mapDelete s.nodesMap
          ((getOrderedNodes cfg s).getD pair.indices.2 default).position,
        mapDelete s.virtualKeyMap
          ((getOrderedNodes cfg s).getD pair.indices.2 default).position⟩
      ((getOrderedNodes cfg s).getD pair.indices.2 default).node
      ((mapGet s.virtualKeyMap
          ((getOrderedNodes cfg s).getD pair.indices.2
            default).position).getD "")
      hhit (n + 1) 1
    simp only [hres]

/-- Every digest table key of `hash3` has length 3, so no rotation key
(length ≥ 11) matches and the default branch returns `"1"`. -/
theorem hash3_rotate (x : String) : hash3 ("C:1_rotate" ++ x) = "1" := by
  have hlen : ∀ y : String, y.length = 3 → ¬ ("C:1_rotate" ++ x = y) := by
    intro y hy h
    have hl := congrArg String.length h
    rw [String.length_append, hy] at hl
    have h10 : ("C:1_rotate" : String).length = 10 := rfl
    rw [h10] at hl
    omega
  simp only [hash3]
  rw [if_neg (hlen "A:0" rfl), if_neg (hlen "A:1" rfl),
      if_neg (hlen "B:0" rfl), if_neg (hlen "B:1" rfl),
      if_neg (hlen "C:0" rfl), if_neg (hlen "C:1" rfl)]

/-- C3: the rotation search of `fixAdjacentReplicas` carries no
iteration cap.  Failing input: `addNode("C")` on the two-node ring
`s2C3` built with the digest function `hash3`, which maps every rotation
key to the already-occupied digest `"1"`.  The repair pass finds the
adjacent pair `("4","5")` of node `C`, finds a relocation index, and
then the rotation `do…while` cycles forever (`nodesMap.has(newDigest)`
is `true` on every attempt).  In the model the call returns `outOfFuel`
for every fuel bound, i.e. the source call never terminates — the code
has no cap and surfaces no diagnostic, contradicting the claim. -/
theorem C3_rotation_search_unbounded :
    ∀ fuel : Nat,
      (addNode cfg3 fuel s2C3 "C" false).2 = RepairExit.outOfFuel := by
  intro fuel
  rw [addNode, fixAdjacentReplicas,
    if_neg (by decide :
      ¬ getUniqueNodeCount cfg3 (addReplicas cfg3 s2C3 "C" false) < 2)]
  refine repairLoop_stuck cfg3 (addReplicas cfg3 s2C3 "C" false)
    ⟨"C", ("4", "5"), (4, 5)⟩ [] (by decide) 1 (by decide) ?_ fuel
  intro a
  rw [show ((getOrderedNodes cfg3 (addReplicas cfg3 s2C3 "C" false)).getD
      (⟨"C", ("4", "5"), (4, 5)⟩ : AdjPair String).indices.2
      default).position = "5" from by decide]
  rw [show (mapGet (addReplicas cfg3 s2C3 "C" false).virtualKeyMap
      "5").getD "" = "C:1" from by decide]
  rw [show ("C:1" ++ "_rotate" : String) = "C:1_rotate" from rfl]
  rw [show cfg3.hashFn = hash3 from rfl]
  rw [hash3_rotate (toString a)]
  decide

/-! ## Counterexample evaluations for corrected claims -/

/-- Counterexample to C1 as stated: in the four-node ring `sC1`
(nodes `A,B,C,D`, two replicas each, built through the public API), the
key `"k35"` is routed to `"C"`; after `removeNode("B")` — whose repair
pass relocates replicas of the surviving nodes `C` and `D` and returns
normally — the same key is routed to `"A"`.  A key previously routed to
a node other than the removed `"B"` thus changes its routing. -/
theorem C1_counterexample :
    getNode cfg1 sC1 "k35" = some "C" ∧
    (removeNode cfg1 20 sC1 "B").2 = RepairExit.done ∧
    getNode cfg1 ((removeNode cfg1 20 sC1 "B").1) "k35" = some "A" := by
  decide

/-- Counterexample to C5 as stated: `sC5` is reachable through the
public API (`addNode("A"); addNode("B"); addNode("C")` with a digest
collision between `"B:0"` and `"B:1"`); its position index is non-empty
(and its node table is non-empty), yet `getNode("k2")` returns absence,
because the repair pass left a stored digest with no binding in the
digest→node table. -/
theorem C5_counterexample :
    sC5.root ≠ Tree.leaf ∧ sC5.nodesMap ≠ [] ∧
    getNode cfg5 sC5 "k2" = none := by
  decide

/-- Counterexample to C6 as stated: after `addNode("A"); addNode("B")`
(each node added once, both calls returning) with a digest collision
between `"B:1"` and `"A:0"`, two distinct physical nodes are present but
`getNodesCount()` returns `3/2`, and node `A` owns a single virtual
position although `replicas = 2`. -/
theorem C6_counterexample :
    getNodesCount cfg6 sC6 = (3 : ℚ) / 2 ∧
    getUniqueNodeCount cfg6 sC6 = 2 ∧
    ((3 : ℚ) / 2 ≠ (2 : ℚ)) ∧
    (sC6.nodesMap.filter
      (fun p => decide (cfg6.nodeToString p.2 = "A"))).length = 1 := by
  refine ⟨?_, by decide, by norm_num, by decide⟩
  have h : sC6.nodesMap.length = 3 := by decide
  have hr : cfg6.replicas = 2 := rfl
  rw [getNodesCount, h, hr]
  norm_num

/-- Counterexample to C7 as stated: the constructor
`new HashRing(["A"], 2)` (spread hashing defaults to `true`) records the
virtual keys `"A:0:spread1"` and `"A:1:spread2"` in the ledger — not the
claimed `"A:0"` and `"A:1"`. -/
theorem C7_counterexample :
    sC7.virtualKeyMap = [("1", "A:0:spread1"), ("2", "A:1:spread2")] ∧
    "A:0" ∉ sC7.virtualKeyMap.map (·.2) := by
  decide

/-- Counterexample to C8 as stated: with two distinct node values
`("A",1)` and `("A",2)` sharing the `nodeToString` key `"A"` (reachable
because spread hashing gives them distinct virtual keys),
`getNodesInRange("0","9")` returns both values — two returned values
with equal `nodeKey` strings, so the result is not deduplicated by
physical-node identity. -/
theorem C8_counterexample :
    getNodesInRange cfg8 sC8 "0" "9" = [("A", 1), ("A", 2)] ∧
    cfg8.nodeToString ("A", 1) = cfg8.nodeToString ("A", 2) := by
  decide

/-! ## Map-update lemmas -/

theorem mapGet_mapSet_self {β : Type} :
    ∀ (m : List (String × β)) (k : String) (v : β),
      mapGet (mapSet m k v) k = some v := by
  intro m
  induction m with
  | nil =>
    intro k v
    rw [mapSet, mapGet, List.find?_cons_of_pos _ (by simp)]
    rfl
  | cons p rest ih =>
    intro k v
    rw [mapSet]
    split
    · rw [mapGet, List.find?_cons_of_pos _ (by simp)]
      rfl
    · rename_i hne
      rw [mapGet, List.find?_cons_of_neg _ (by simpa using hne)]
      exact ih k v

theorem mapGet_mapSet_ne {β : Type} :
    ∀ (m : List (String × β)) (k k' : String) (v : β), k' ≠ k →
      mapGet (mapSet m k v) k' = mapGet m k' := by
  intro m
  induction m with
  | nil =>
    intro k k' v hne
    rw [mapSet, mapGet,
      List.find?_cons_of_neg _ (by simp [Ne.symm hne]), mapGet]
  | cons p rest ih =>
    intro k k' v hne
    rw [mapSet]
    split
    · rename_i hpk
      by_cases hp' : p.1 = k'
      · exact absurd (hp' ▸ hpk.symm).symm hne
      · rw [mapGet, List.find?_cons_of_neg _ (by simp [Ne.symm hne]),
          mapGet, List.find?_cons_of_neg _ (by simpa using hp')]
    · by_cases hp' : p.1 = k'
      · rw [mapGet, List.find?_cons_of_pos _ (by simpa using hp'),
          mapGet, List.find?_cons_of_pos _ (by simpa using hp')]
      · rw [mapGet, List.find?_cons_of_neg _ (by simpa using hp'),
          mapGet, List.find?_cons_of_neg _ (by simpa using hp')]
        exact ih k k' v hne

theorem mapHas_eq_isSome {β : Type} :
    ∀ (m : List (String × β)) (k : String),
      mapHas m k = (mapGet m k).isSome := by
  intro m
  induction m with
  | nil => intro k; rfl
  | cons p rest ih =>
    intro k
    rw [mapHas, List.any_cons, mapGet, List.find?]
    cases hp : decide (p.1 = k) with
    | true => rfl
    | false =>
      rw [Bool.false_or]
      exact ih k

theorem length_mapSet {β : Type} :
    ∀ (m : List (String × β)) (k : String) (v : β),
      (mapSet m k v).length =
        if mapHas m k = true then m.length else m.length + 1 := by
  intro m
  induction m with
  | nil => intro k v; rfl
  | cons p rest ih =>
    intro k v
    rw [mapSet]
    split
    · rename_i hpk
      rw [if_pos (by rw [mapHas, List.any_cons]; simp [hpk])]
      rfl
    · rename_i hpk
      have hh : mapHas (p :: rest) k = mapHas rest k := by
        rw [mapHas, List.any_cons, mapHas]
        simp [hpk]
      rw [List.length_cons, ih k v, hh]
      split <;> rfl

/-! ## Tree-membership lemmas -/

theorem treeMem_insertNode_self (cmp : String → String → Ordering) :
    ∀ (t : Tree) (v : String), treeMem (insertNode cmp t v) v = true := by
  intro t
  induction t with
  | leaf => intro v; simp [insertNode, treeMem]
  | node l x r ihl ihr =>
    intro v
    rw [insertNode]
    split
    · rw [treeMem]
      simp [ihl v]
    · rw [treeMem]
      simp [ihr v]

theorem treeMem_insertNode_of (cmp : String → String → Ordering) :
    ∀ (t : Tree) (v w : String), treeMem t w = true →
      treeMem (insertNode cmp t v) w = true := by
  intro t
  induction t with
  | leaf => intro v w h; cases h
  | node l x r ihl ihr =>
    intro v w h
    rw [treeMem, Bool.or_eq_true, Bool.or_eq_true] at h
    rw [insertNode]
    split
    · rw [treeMem]
      rcases h with (h | h) | h
      · simp [h]
      · simp [ihl v w h]
      · simp [h]
    · rw [treeMem]
      rcases h with (h | h) | h
      · simp [h]
      · simp [h]
      · simp [ihr v w h]

/-! ## Insertion-loop lemmas -/

theorem length_addFrom_le {T : Type} (cfg : Config T) (n : T)
    (sp : Bool) :
    ∀ (c i : Nat) (s : Ring T),
      (addReplicasFrom cfg n sp i c s).nodesMap.length ≤
        s.nodesMap.length + c := by
  intro c
  induction c with
  | zero => intro i s; exact Nat.le_refl _
  | succ c ih =>
    intro i s
    rw [addReplicasFrom]
    have h1 := ih (i + 1) (insertReplica cfg n sp i s)
    have h2 : (insertReplica cfg n sp i s).nodesMap.length ≤
        s.nodesMap.length + 1 := by
      rw [insertReplica]
      rw [length_mapSet]
      split <;> omega
    omega

/-- If the whole remaining loop grows the table by exactly its iteration
count, the current iteration's digest is fresh and the tail keeps the
exact-growth property. -/
theorem addFrom_step_fresh {T : Type} (cfg : Config T) (n : T)
    (sp : Bool) (c i : Nat) (s : Ring T)
    (h : (addReplicasFrom cfg n sp i (c + 1) s).nodesMap.length =
      s.nodesMap.length + (c + 1)) :
    mapHas s.nodesMap
      (cfg.hashFn (virtualKeyFor cfg s n sp i)) = false ∧
    (insertReplica cfg n sp i s).nodesMap.length =
      s.nodesMap.length + 1 ∧
    (addReplicasFrom cfg n sp (i + 1) c
      (insertReplica cfg n sp i s)).nodesMap.length =
      (insertReplica cfg n sp i s).nodesMap.length + c := by
  rw [addReplicasFrom] at h
  have hle := length_addFrom_le cfg n sp c (i + 1)
    (insertReplica cfg n sp i s)
  have hlen : (insertReplica cfg n sp i s).nodesMap.length =
      s.nodesMap.length + 1 := by
    have h2 : (insertReplica cfg n sp i s).nodesMap.length ≤
        s.nodesMap.length + 1 := by
      rw [insertReplica, length_mapSet]
      split <;> omega
    omega
  refine ⟨?_, hlen, by omega⟩
  have := hlen
  rw [insertReplica, length_mapSet] at this
  by_cases hh : mapHas s.nodesMap
      (cfg.hashFn (virtualKeyFor cfg s n sp i)) = true
  · rw [if_pos hh] at this
    omega
  · exact Bool.eq_false_iff.mpr hh

/-- Bindings present before the insertion loop are untouched by it (the
loop only ever sets fresh digests, given exact growth). -/
theorem addFrom_preserves {T : Type} (cfg : Config T) (n : T)
    (sp : Bool) :
    ∀ (c i : Nat) (s : Ring T) (k : String),
      (addReplicasFrom cfg n sp i c s).nodesMap.length =
        s.nodesMap.length + c →
      mapHas s.nodesMap k = true →
      mapGet (addReplicasFrom cfg n sp i c s).nodesMap k =
        mapGet s.nodesMap k ∧
      mapGet (addReplicasFrom cfg n sp i c s).virtualKeyMap k =
        mapGet s.virtualKeyMap k := by
  intro c
  induction c with
  | zero => intro i s k _ _; exact ⟨rfl, rfl⟩
  | succ c ih =>
    intro i s k h hk
    obtain ⟨hfresh, hlen, htail⟩ := addFrom_step_fresh cfg n sp c i s h
    have hkne : k ≠ cfg.hashFn (virtualKeyFor cfg s n sp i) := by
      intro he
      rw [← he] at hfresh
      rw [hk] at hfresh
      cases hfresh
    have hget1 : mapGet (insertReplica cfg n sp i s).nodesMap k =
        mapGet s.nodesMap k := by
      rw [insertReplica]
      exact mapGet_mapSet_ne _ _ _ _ hkne
    have hget2 : mapGet (insertReplica cfg n sp i s).virtualKeyMap k =
        mapGet s.virtualKeyMap k := by
      rw [insertReplica]
      exact mapGet_mapSet_ne _ _ _ _ hkne
    have hk1 : mapHas (insertReplica cfg n sp i s).nodesMap k = true := by
      rw [mapHas_eq_isSome, hget1, ← mapHas_eq_isSome]
      exact hk
    rw [addReplicasFrom]
    obtain ⟨ha, hb⟩ := ih (i + 1) (insertReplica cfg n sp i s) k htail hk1
    exact ⟨by rw [ha, hget1], by rw [hb, hget2]⟩

theorem treeMem_addFrom_of {T : Type} (cfg : Config T) (n : T)
    (sp : Bool) :
    ∀ (c i : Nat) (s : Ring T) (w : String),
      treeMem s.root w = true →
      treeMem (addReplicasFrom cfg n sp i c s).root w = true := by
  intro c
  induction c with
  | zero => intro i s w h; exact h
  | succ c ih =>
    intro i s w h
    rw [addReplicasFrom]
    exact ih (i + 1) _ w (treeMem_insertNode_of _ _ _ _ h)

/-- The plain-key insertion loop of `addNode` (spread hashing disabled):
under exact growth (collision-freedom), every replica index `j` in the
processed block ends up with its digest in the tree, its digest→node
binding and its digest→virtual-key record. -/
theorem addFrom_plain_spec {T : Type} (cfg : Config T) (n : T) :
    ∀ (c i : Nat) (s : Ring T),
      (addReplicasFrom cfg n false i c s).nodesMap.length =
        s.nodesMap.length + c →
      ∀ j, i ≤ j → j < i + c →
        treeMem (addReplicasFrom cfg n false i c s).root
          (cfg.hashFn (cfg.nodeToString n ++ ":" ++ toString j)) =
            true ∧
        mapGet (addReplicasFrom cfg n false i c s).nodesMap
          (cfg.hashFn (cfg.nodeToString n ++ ":" ++ toString j)) =
            some n ∧
        mapGet (addReplicasFrom cfg n false i c s).virtualKeyMap
          (cfg.hashFn (cfg.nodeToString n ++ ":" ++ toString j)) =
            some (cfg.nodeToString n ++ ":" ++ toString j) := by
  intro c
  induction c with
  | zero =>
    intro i s _ j h1 h2
    omega
  | succ c ih =>
    intro i s h j h1 h2
    obtain ⟨hfresh, hlen, htail⟩ := addFrom_step_fresh cfg n false c i s h
    have hkey : virtualKeyFor cfg s n false i =
        cfg.nodeToString n ++ ":" ++ toString i := rfl
    by_cases hji : j = i
    · subst hji
      have hget1 : mapGet (insertReplica cfg n false j s).nodesMap
          (cfg.hashFn (cfg.nodeToString n ++ ":" ++ toString j)) =
          some n := by
        rw [insertReplica, hkey]
        exact mapGet_mapSet_self _ _ _
      have hget2 : mapGet (insertReplica cfg n false j s).virtualKeyMap
          (cfg.hashFn (cfg.nodeToString n ++ ":" ++ toString j)) =
          some (cfg.nodeToString n ++ ":" ++ toString j) := by
        rw [insertReplica, hkey]
        exact mapGet_mapSet_self _ _ _
      have htree : treeMem (insertReplica cfg n false j s).root
          (cfg.hashFn (cfg.nodeToString n ++ ":" ++ toString j)) =
          true := by
        rw [insertReplica, hkey]
        exact treeMem_insertNode_self _ _ _
      have hk1 : mapHas (insertReplica cfg n false j s).nodesMap
          (cfg.hashFn (cfg.nodeToString n ++ ":" ++ toString j)) =
          true := by
        rw [mapHas_eq_isSome, hget1]
        rfl
      rw [addReplicasFrom]
      obtain ⟨ha, hb⟩ := addFrom_preserves cfg n false c (j + 1)
        (insertReplica cfg n false j s)
        (cfg.hashFn (cfg.nodeToString n ++ ":" ++ toString j))
        htail hk1
      exact ⟨treeMem_addFrom_of cfg n false c (j + 1) _ _ htree,
        by rw [ha, hget1], by rw [hb, hget2]⟩
    · rw [addReplicasFrom]
      exact ih (i + 1) (insertReplica cfg n false i s) htail j
        (by omega) (by omega)

/-! ## Claim C7 -/

/-- C7 (amended): `addNode(node)` with spread hashing disabled (the
default for direct calls), under collision-freedom of the produced
digests (exact table growth, the §3 invariant): for every replica index
`i < replicas`, the virtual key `"<nodeKey(node)>:<i>"` is built, its
digest is inserted into the Position Index, bound to `node` in the
Digest→Node Table and recorded in the Virtual-Key Ledger — all before
the adjacency-repair pass (which may relocate replicas afterwards; the
constructor's default seeding instead builds spread keys, see the
counterexample). -/
theorem C7_addReplicas_plain {T : Type} (cfg : Config T) (s : Ring T)
    (n : T)
    (hfresh : (addReplicas cfg s n false).nodesMap.length =
      s.nodesMap.length + cfg.replicas) :
    ∀ i < cfg.replicas,
      treeMem (addReplicas cfg s n false).root
        (cfg.hashFn (cfg.nodeToString n ++ ":" ++ toString i)) = true ∧
      mapGet (addReplicas cfg s n false).nodesMap
        (cfg.hashFn (cfg.nodeToString n ++ ":" ++ toString i)) =
          some n ∧
      mapGet (addReplicas cfg s n false).virtualKeyMap
        (cfg.hashFn (cfg.nodeToString n ++ ":" ++ toString i)) =
          some (cfg.nodeToString n ++ ":" ++ toString i) := by
  intro i hi
  exact addFrom_plain_spec cfg n cfg.replicas 0 s hfresh i
    (Nat.zero_le i) (by omega)

/-- Witness for C7 at a concrete input: adding `"B"` to the one-node
ring `{A}` with one replica builds `"B:0"` and installs its digest in
all three structures. -/
theorem C7_witness :
    treeMem (addReplicas cfgW sW1 "B" false).root
      (cfgW.hashFn (cfgW.nodeToString "B" ++ ":" ++ toString 0)) =
        true ∧
    mapGet (addReplicas cfgW sW1 "B" false).nodesMap
      (cfgW.hashFn (cfgW.nodeToString "B" ++ ":" ++ toString 0)) =
        some "B" ∧
    mapGet (addReplicas cfgW sW1 "B" false).virtualKeyMap
      (cfgW.hashFn (cfgW.nodeToString "B" ++ ":" ++ toString 0)) =
        some (cfgW.nodeToString "B" ++ ":" ++ toString 0) :=
  C7_addReplicas_plain cfgW sW1 "B" (by decide) 0 (by decide)

/-! ## Claim C8 -/

theorem setInsert_mem {T : Type} [DecidableEq T] (l : List T) (a x : T) :
    x ∈ setInsert l a ↔ x ∈ l ∨ x = a := by
  rw [setInsert]
  split
  · rename_i hmem
    constructor
    · exact Or.inl
    · rintro (h | rfl)
      · exact h
      · exact hmem
  · simp [List.mem_append]

theorem setInsert_nodup {T : Type} [DecidableEq T] (l : List T) (a : T)
    (h : l.Nodup) : (setInsert l a).Nodup := by
  rw [setInsert]
  split
  · exact h
  · rename_i hmem
    simp [List.nodup_append, h, hmem]

theorem rangeFold_mem {T : Type} [DecidableEq T] (cfg : Config T)
    (s : Ring T) (startD endD : String) :
    ∀ (L : List String) (acc : List T) (x : T),
      x ∈ L.foldl (fun acc digest =>
        if inRangeB cfg startD endD digest then
          match mapGet s.nodesMap digest with
          | some node => setInsert acc node
          | none => acc
        else acc) acc ↔
      x ∈ acc ∨ ∃ d, d ∈ L ∧ inRangeB cfg startD endD d = true ∧
        mapGet s.nodesMap d = some x := by
  intro L
  induction L with
  | nil =>
    intro acc x
    simp
  | cons d L ih =>
    intro acc x
    simp only [List.foldl_cons]
    rw [ih]
    constructor
    · rintro (hx | ⟨d', hd', h1, h2⟩)
      · by_cases hr : inRangeB cfg startD endD d = true
        · rw [if_pos hr] at hx
          cases hm : mapGet s.nodesMap d with
          | some node =>
            rw [hm] at hx
            rcases (setInsert_mem acc node x).mp hx with h | rfl
            · exact Or.inl h
            · exact Or.inr ⟨d, List.mem_cons_self _ _, hr, hm⟩
          | none =>
            rw [hm] at hx
            exact Or.inl hx
        · rw [if_neg hr] at hx
          exact Or.inl hx
      · exact Or.inr ⟨d', List.mem_cons_of_mem _ hd', h1, h2⟩
    · rintro (hx | ⟨d', hd', h1, h2⟩)
      · left
        by_cases hr : inRangeB cfg startD endD d = true
        · rw [if_pos hr]
          cases hm : mapGet s.nodesMap d with
          | some node =>
            exact (setInsert_mem acc node x).mpr (Or.inl hx)
          | none =>
            exact hx
        · rw [if_neg hr]
          exact hx
      · rcases List.mem_cons.mp hd' with rfl | hd''
        · left
          rw [if_pos h1, h2]
          exact (setInsert_mem acc x x).mpr (Or.inr rfl)
        · exact Or.inr ⟨d', hd'', h1, h2⟩

theorem rangeFold_nodup {T : Type} [DecidableEq T] (cfg : Config T)
    (s : Ring T) (startD endD : String) :
    ∀ (L : List String) (acc : List T), acc.Nodup →
      (L.foldl (fun acc digest =>
        if inRangeB cfg startD endD digest then
          match mapGet s.nodesMap digest with
          | some node => setInsert acc node
          | none => acc
        else acc) acc).Nodup := by
  intro L
  induction L with
  | nil => intro acc h; exact h
  | cons d L ih =>
    intro acc h
    simp only [List.foldl_cons]
    apply ih
    split
    · cases hm : mapGet s.nodesMap d with
      | some node => exact setInsert_nodup _ _ h
      | none => exact h
    · exact h

/-- C8 (amended): `getNodesInRange(start, end)` returns exactly the
nodes bound to a stored digest inside the (wrap-around aware) range,
and the returned collection is deduplicated by node-value identity (the
source's `Set<T>`).  Under the hypothesis that distinct bound node
values never share a `nodeToString` key (true e.g. for string nodes
with the default `nodeToString`, but not in general — see the
counterexample), no two returned values have equal `nodeKey` strings. -/
theorem C8_getNodesInRange_spec {T : Type} [DecidableEq T]
    (cfg : Config T) (s : Ring T) (startD endD : String)
    (hinj : ∀ a b : T, (∃ da, mapGet s.nodesMap da = some a) →
      (∃ db, mapGet s.nodesMap db = some b) →
      cfg.nodeToString a = cfg.nodeToString b → a = b) :
    (∀ x : T, x ∈ getNodesInRange cfg s startD endD ↔
      ∃ d, d ∈ getSortedDigests s ∧
        inRangeB cfg startD endD d = true ∧
        mapGet s.nodesMap d = some x) ∧
    (getNodesInRange cfg s startD endD).Pairwise
      (fun a b => cfg.nodeToString a ≠ cfg.nodeToString b) := by
  have hmem : ∀ x : T, x ∈ getNodesInRange cfg s startD endD ↔
      ∃ d, d ∈ getSortedDigests s ∧
        inRangeB cfg startD endD d = true ∧
        mapGet s.nodesMap d = some x := by
    intro x
    rw [getNodesInRange]
    split
    · rename_i hlen
      have hnil : getSortedDigests s = [] :=
        List.length_eq_zero.mp hlen
      simp [hnil]
    · rw [rangeFold_mem cfg s startD endD (getSortedDigests s) [] x]
      simp
  refine ⟨hmem, ?_⟩
  have hnd : (getNodesInRange cfg s startD endD).Nodup := by
    rw [getNodesInRange]
    split
    · exact List.nodup_nil
    · exact rangeFold_nodup cfg s startD endD _ [] List.nodup_nil
  apply List.Pairwise.imp_of_mem ?_ hnd
  intro a b ha hb hab hts
  obtain ⟨da, _, _, hga⟩ := (hmem a).mp ha
  obtain ⟨db, _, _, hgb⟩ := (hmem b).mp hb
  exact hab (hinj a b ⟨da, hga⟩ ⟨db, hgb⟩ hts)

/-- Witness for C8 at a concrete input: on the two-node string ring the
returned nodes have pairwise-distinct `nodeKey`s (string nodes cannot
share a key without being equal). -/
theorem C8_witness :
    (getNodesInRange cfgW sW2 "0" "9").Pairwise
      (fun a b => cfgW.nodeToString a ≠ cfgW.nodeToString b) :=
  (C8_getNodesInRange_spec cfgW sW2 "0" "9"
    (fun _ _ _ _ h => h)).2

/-! ## Claim C6: bookkeeping lemmas -/

theorem mapHas_false_iff {β : Type} (m : List (String × β))
    (k : String) : mapHas m k = false ↔ k ∉ m.map (·.1) := by
  rw [Bool.eq_false_iff, Ne, mapHas, List.any_eq_true]
  simp

theorem filter_length_partition {α : Type} (p : α → Bool) :
    ∀ l : List α,
      (l.filter p).length + (l.filter (fun a => !(p a))).length =
        l.length := by
  intro l
  induction l with
  | nil => rfl
  | cons a t ih =>
    rw [List.filter_cons, List.filter_cons]
    cases h : p a
    · rw [if_neg (by simp [h]), if_pos (by simp [h])]
      simp only [List.length_cons]
      omega
    · rw [if_pos (by simp [h]), if_neg (by simp [h])]
      simp only [List.length_cons]
      omega

theorem presentB_iff_pos {T : Type} (cfg : Config T) (s : Ring T)
    (str : String) :
    presentB cfg s str = true ↔ 0 < ownedCount cfg s str := by
  rw [presentB, ownedCount, List.any_eq_true]
  constructor
  · rintro ⟨p, hp, hd⟩
    exact List.length_pos.mpr
      (List.ne_nil_of_mem (List.mem_filter.mpr ⟨hp, hd⟩))
  · intro h
    obtain ⟨p, hp⟩ := List.exists_mem_of_length_pos h
    have hm := List.mem_filter.mp hp
    exact ⟨p, hm.1, hm.2⟩

theorem entry_unique {β : Type} :
    ∀ (m : List (String × β)), (m.map (·.1)).Nodup →
      ∀ p q : String × β, p ∈ m → q ∈ m → p.1 = q.1 → p = q := by
  intro m
  induction m with
  | nil => intro _ p q hp; cases hp
  | cons a t ih =>
    intro hnd p q hp hq hpq
    rw [List.map_cons, List.nodup_cons] at hnd
    rcases List.mem_cons.mp hp with rfl | hp' <;>
      rcases List.mem_cons.mp hq with rfl | hq'
    · rfl
    · exact absurd (by rw [hpq]; exact List.mem_map_of_mem _ hq') hnd.1
    · exact absurd (by rw [← hpq]; exact List.mem_map_of_mem _ hp') hnd.1
    · exact ih hnd.2 p q hp' hq' hpq

theorem mem_nodeKeys_iff {T : Type} (cfg : Config T) (s : Ring T)
    (str : String) :
    str ∈ (s.nodesMap.map (fun p => cfg.nodeToString p.2)).toFinset ↔
      presentB cfg s str = true := by
  rw [List.mem_toFinset, List.mem_map, presentB, List.any_eq_true]
  constructor
  · rintro ⟨p, hp, hts⟩
    exact ⟨p, hp, by simp [hts]⟩
  · rintro ⟨p, hp, hts⟩
    exact ⟨p, hp, by simpa using hts⟩

theorem uniqueNodeCount_congr {T : Type} (cfg : Config T)
    (s₁ s₂ : Ring T)
    (h : ∀ str, presentB cfg s₁ str = presentB cfg s₂ str) :
    getUniqueNodeCount cfg s₁ = getUniqueNodeCount cfg s₂ := by
  rw [getUniqueNodeCount, getUniqueNodeCount]
  congr 1
  apply Finset.ext
  intro str
  rw [mem_nodeKeys_iff, mem_nodeKeys_iff, h]

theorem mapGet_decomp {β : Type} :
    ∀ (m : List (String × β)) (k : String) (v : β),
      mapGet m k = some v →
      ∃ m₁ m₂, m = m₁ ++ (k, v) :: m₂ ∧ ∀ p ∈ m₁, p.1 ≠ k := by
  intro m
  induction m with
  | nil => intro k v h; cases h
  | cons a t ih =>
    intro k v h
    rw [mapGet, List.find?] at h
    cases ha : decide (a.1 = k) with
    | true =>
      rw [ha] at h
      injection h with h
      have hav : a = (k, v) := by
        obtain ⟨a1, a2⟩ := a
        simp only at h
        have h1 : a1 = k := of_decide_eq_true ha
        rw [h1, h]
      exact ⟨[], t, by rw [hav]; rfl, fun p hp => absurd hp
        (List.not_mem_nil p)⟩
    | false =>
      rw [ha] at h
      obtain ⟨m₁, m₂, heq, hne⟩ := ih k v h
      refine ⟨a :: m₁, m₂, by rw [heq]; rfl, ?_⟩
      intro p hp
      rcases List.mem_cons.mp hp with rfl | hp'
      · exact of_decide_eq_false ha
      · exact hne p hp'

theorem mapSet_append_of_not_has {β : Type} :
    ∀ (m : List (String × β)) (k : String) (v : β),
      mapHas m k = false → mapSet m k v = m ++ [(k, v)] := by
  intro m
  induction m with
  | nil => intro k v _; rfl
  | cons a t ih =>
    intro k v h
    rw [mapHas, List.any_cons, Bool.or_eq_false_iff] at h
    rw [mapSet, if_neg (by simpa using h.1), ih k v
      (by rw [mapHas]; exact h.2)]
    rfl

theorem mapDelete_decomp {β : Type} (m₁ m₂ : List (String × β))
    (k : String) (v : β) (h₁ : ∀ p ∈ m₁, p.1 ≠ k)
    (h₂ : ∀ p ∈ m₂, p.1 ≠ k) :
    mapDelete (m₁ ++ (k, v) :: m₂) k = m₁ ++ m₂ := by
  rw [mapDelete, List.filter_append, List.filter_cons, if_neg (by simp),
    List.filter_eq_self.mpr (fun p hp => by simpa using h₁ p hp),
    List.filter_eq_self.mpr (fun p hp => by simpa using h₂ p hp)]

theorem rotateSearch_some_fresh {T : Type} [Inhabited T]
    (cfg : Config T) (s : Ring T) (node : T) (vk : String) :
    ∀ (f a : Nat) (d w : String),
      rotateSearch cfg s node vk a f = some (d, w) →
      mapHas s.nodesMap d = false := by
  intro f
  induction f with
  | zero => intro a d w h; cases h
  | succ n ih =>
    intro a d w h
    simp only [rotateSearch] at h
    split at h
    · exact ih (a + 1) d w h
    · rename_i hcond
      injection h with h2
      injection h2 with h3 h4
      rw [← h3]
      exact Bool.eq_false_iff.mpr (fun hc => hcond (Or.inl hc))

theorem addFrom_append {T : Type} (cfg : Config T) (n : T) (sp : Bool) :
    ∀ (c i : Nat) (s : Ring T),
      (addReplicasFrom cfg n sp i c s).nodesMap.length =
        s.nodesMap.length + c →
      ∃ ds : List String, ds.length = c ∧ ds.Nodup ∧
        (∀ d ∈ ds, mapHas s.nodesMap d = false) ∧
        (addReplicasFrom cfg n sp i c s).nodesMap =
          s.nodesMap ++ ds.map (fun d => (d, n)) := by
  intro c
  induction c with
  | zero =>
    intro i s _
    exact ⟨[], rfl, List.nodup_nil,
      fun d hd => absurd hd (List.not_mem_nil d),
      by rw [addReplicasFrom]; simp⟩
  | succ c ih =>
    intro i s h
    obtain ⟨hfresh, hlen1, hrest⟩ := addFrom_step_fresh cfg n sp c i s h
    obtain ⟨ds, hdsl, hdsnd, hdsf, hdseq⟩ :=
      ih (i + 1) (insertReplica cfg n sp i s) (by rw [hrest, hlen1])
    have hins : (insertReplica cfg n sp i s).nodesMap =
        s.nodesMap ++ [(cfg.hashFn (virtualKeyFor cfg s n sp i), n)] :=
      mapSet_append_of_not_has s.nodesMap _ n hfresh
    refine ⟨cfg.hashFn (virtualKeyFor cfg s n sp i) :: ds,
      by rw [List.length_cons, hdsl], ?_, ?_, ?_⟩
    · rw [List.nodup_cons]
      refine ⟨fun hmem => ?_, hdsnd⟩
      have hh := hdsf _ hmem
      rw [hins, mapHas, List.any_append] at hh
      simp at hh
    · intro d hd
      rcases List.mem_cons.mp hd with rfl | hd'
      · exact hfresh
      · have hh := hdsf d hd'
        rw [hins, mapHas, List.any_append, Bool.or_eq_false_iff] at hh
        exact hh.1
    · rw [addReplicasFrom, hdseq, hins, List.map_cons, List.append_assoc]
      rfl

theorem filter_map_const_pair {T : Type} (cfg : Config T) (n : T)
    (ds : List String) (str : String) :
    ((ds.map (fun d => (d, n))).filter
      (fun p => decide (cfg.nodeToString p.2 = str))).length =
      if cfg.nodeToString n = str then ds.length else 0 := by
  split
  · rename_i hts
    rw [List.filter_eq_self.mpr]
    · rw [List.length_map]
    · intro p hp
      obtain ⟨d, _, rfl⟩ := List.mem_map.mp hp
      simpa using hts
  · rename_i hts
    rw [List.filter_eq_nil_iff.mpr]
    · rfl
    · intro p hp
      obtain ⟨d, _, rfl⟩ := List.mem_map.mp hp
      simpa using hts

theorem orderedNodes_binding {T : Type} (cfg : Config T) (s : Ring T)
    (e : OrderedEntry T) (h : e ∈ getOrderedNodes cfg s) :
    mapGet s.nodesMap e.position = some e.node := by
  rw [getOrderedNodes] at h
  obtain ⟨d, _, he⟩ := List.mem_filterMap.mp h
  cases hm : mapGet s.nodesMap d with
  | none => rw [hm] at he; cases he
  | some node =>
    rw [hm] at he
    injection he with he
    rw [← he]
    exact hm

theorem findAdj_index_lt {T : Type} [Inhabited T] (cfg : Config T)
    (s : Ring T) (pair : AdjPair T)
    (h : pair ∈ findAdjacentReplicas cfg s) :
    pair.indices.2 < (getOrderedNodes cfg s).length := by
  simp only [findAdjacentReplicas] at h
  split at h
  · exact absurd h (List.not_mem_nil pair)
  · rename_i hlen
    obtain ⟨i, hi, he⟩ := List.mem_filterMap.mp h
    split at he
    · injection he with he
      rw [← he]
      exact Nat.mod_lt _ (by omega)
    · cases he

theorem presentB_congr_of_counts {T : Type} (cfg : Config T)
    (s₁ s₂ : Ring T)
    (h : ∀ str, ownedCount cfg s₁ str = ownedCount cfg s₂ str)
    (str : String) :
    presentB cfg s₁ str = presentB cfg s₂ str := by
  cases h2 : presentB cfg s₂ str
  · cases h1 : presentB cfg s₁ str
    · rfl
    · exfalso
      have hp := (presentB_iff_pos cfg s₁ str).mp h1
      rw [h str] at hp
      have := (presentB_iff_pos cfg s₂ str).mpr hp
      rw [h2] at this
      cases this
  · refine (presentB_iff_pos cfg s₁ str).mpr ?_
    rw [h str]
    exact (presentB_iff_pos cfg s₂ str).mp h2

theorem step_map_facts {β : Type} (m : List (String × β)) (oldD : String)
    (v : β) (newD : String) (f : β → Bool)
    (hget : mapGet m oldD = some v)
    (hnd : (m.map (·.1)).Nodup)
    (hfresh : mapHas (mapDelete m oldD) newD = false) :
    ((mapSet (mapDelete m oldD) newD v).map (·.1)).Nodup ∧
    ((mapSet (mapDelete m oldD) newD v).filter
      (fun p => f p.2)).length = (m.filter (fun p => f p.2)).length ∧
    (mapSet (mapDelete m oldD) newD v).length = m.length := by
  obtain ⟨m₁, m₂, heq, h₁⟩ := mapGet_decomp m oldD v hget
  subst heq
  have hndk := hnd
  rw [List.map_append, List.map_cons] at hndk
  have h₂ : ∀ p ∈ m₂, p.1 ≠ oldD := by
    intro p hp hpk
    have hno := (List.nodup_cons.mp hndk.of_append_right).1
    exact hno (hpk ▸ List.mem_map_of_mem (·.1) hp)
  have hdel : mapDelete (m₁ ++ (oldD, v) :: m₂) oldD = m₁ ++ m₂ :=
    mapDelete_decomp m₁ m₂ oldD v h₁ h₂
  rw [hdel] at hfresh
  have hset : mapSet (m₁ ++ m₂) newD v = (m₁ ++ m₂) ++ [(newD, v)] :=
    mapSet_append_of_not_has (m₁ ++ m₂) newD v hfresh
  rw [hdel, hset]
  refine ⟨?_, ?_, ?_⟩
  · rw [List.map_append]
    refine List.Nodup.append ?_ (List.nodup_singleton _) ?_
    · have hsub : List.Sublist ((m₁ ++ m₂).map (·.1))
          ((m₁ ++ (oldD, v) :: m₂).map (·.1)) := by
        rw [List.map_append, List.map_append, List.map_cons]
        exact (List.sublist_cons_self _ _).append_left _
      exact hnd.sublist hsub
    · intro x hx hx1
      rw [List.map_singleton, List.mem_singleton] at hx1
      subst hx1
      exact (mapHas_false_iff (m₁ ++ m₂) x).mp hfresh hx
  · rw [List.filter_append, List.filter_append, List.filter_cons,
      List.filter_append, List.length_append, List.length_append,
      List.length_append]
    cases hfv : f v
    · rw [if_neg (by simp [hfv]), List.filter_cons, if_neg (by simp [hfv])]
      simp only [List.filter_nil, List.length_nil]
      omega
    · rw [if_pos (by simp [hfv]), List.filter_cons, if_pos (by simp [hfv])]
      simp only [List.filter_nil, List.length_cons, List.length_nil]
      omega
  · simp only [List.length_append, List.length_cons, List.length_nil]
    omega

theorem repairLoop_preserves {T : Type} [Inhabited T] (cfg : Config T) :
    ∀ (fuel : Nat) (s s' : Ring T) (e : RepairExit),
      repairLoop cfg fuel s = (s', e) → e ≠ RepairExit.outOfFuel →
      (s.nodesMap.map (·.1)).Nodup →
      (s'.nodesMap.map (·.1)).Nodup ∧
      (∀ str, ownedCount cfg s' str = ownedCount cfg s str) ∧
      s'.nodesMap.length = s.nodesMap.length := by
  intro fuel
  induction fuel with
  | zero =>
    intro s s' e h he hnd
    simp only [repairLoop, Prod.mk.injEq] at h
    exact absurd h.2.symm he
  | succ n ih =>
    intro s s' e h he hnd
    simp only [repairLoop] at h
    split at h
    · simp only [Prod.mk.injEq] at h
      rw [← h.1]
      exact ⟨hnd, fun _ => rfl, rfl⟩
    · rename_i pair rest hadj
      split at h
      · simp only [Prod.mk.injEq] at h
        rw [← h.1]
        exact ⟨hnd, fun _ => rfl, rfl⟩
      · split at h
        · simp only [Prod.mk.injEq] at h
          exact absurd h.2.symm he
        · rename_i x newD hw tw hrot
          have hlt : pair.indices.2 < (getOrderedNodes cfg s).length :=
            findAdj_index_lt cfg s pair
              (by rw [hadj]; exact List.mem_cons_self pair rest)
          have hent : (getOrderedNodes cfg s).getD pair.indices.2 default
              ∈ getOrderedNodes cfg s := by
            rw [List.getD_eq_getElem _ _ hlt]
            exact List.getElem_mem hlt
          have hget := orderedNodes_binding cfg s _ hent
          have hfresh := rotateSearch_some_fresh cfg
            ⟨deleteNode cfg.cmp s.root
                ((getOrderedNodes cfg s).getD pair.indices.2
                  default).position,
             mapDelete s.nodesMap
                ((getOrderedNodes cfg s).getD pair.indices.2
                  default).position,
             mapDelete s.virtualKeyMap
                ((getOrderedNodes cfg s).getD pair.indices.2
                  default).position⟩
            ((getOrderedNodes cfg s).getD pair.indices.2 default).node
            ((mapGet s.virtualKeyMap
                ((getOrderedNodes cfg s).getD pair.indices.2
                  default).position).getD "")
            (n + 1) 1 hw tw hrot
          have hnd2 := (step_map_facts s.nodesMap
            ((getOrderedNodes cfg s).getD pair.indices.2 default).position
            ((getOrderedNodes cfg s).getD pair.indices.2 default).node
            hw (fun _ => true) hget hnd hfresh).1
          obtain ⟨hnd3, hcnt3, hlen3⟩ := ih _ s' e h he hnd2
          refine ⟨hnd3, fun str => ?_, ?_⟩
          · rw [hcnt3 str]
            exact (step_map_facts s.nodesMap
              ((getOrderedNodes cfg s).getD pair.indices.2
                default).position
              ((getOrderedNodes cfg s).getD pair.indices.2 default).node
              hw (fun b => decide (cfg.nodeToString b = str))
              hget hnd hfresh).2.1
          · rw [hlen3]
            exact (step_map_facts s.nodesMap
              ((getOrderedNodes cfg s).getD pair.indices.2
                default).position
              ((getOrderedNodes cfg s).getD pair.indices.2 default).node
              hw (fun _ => true) hget hnd hfresh).2.2

theorem removePhase_nodesMap {T : Type} (cfg : Config T) (s : Ring T)
    (n : T) (hnd : (s.nodesMap.map (·.1)).Nodup) :
    (removePhase cfg s n).nodesMap =
      s.nodesMap.filter (fun p =>
        decide (¬ cfg.nodeToString p.2 = cfg.nodeToString n)) := by
  rw [removePhase, removeFold_components]
  show (digestsToRemove cfg s n).foldl mapDelete s.nodesMap = _
  rw [foldl_mapDelete_eq_filter]
  apply List.filter_congr
  intro p hp
  rw [decide_eq_decide, digestsToRemove]
  constructor
  · intro hni hts
    exact hni (List.mem_map_of_mem (·.1)
      (List.mem_filter.mpr ⟨hp, by simpa using hts⟩))
  · intro hts hmem
    obtain ⟨q, hq, hq1⟩ := List.mem_map.mp hmem
    have hqm := List.mem_filter.mp hq
    have hqp : q = p := entry_unique s.nodesMap hnd q p hqm.1 hp hq1
    exact hts (hqp ▸ of_decide_eq_true hqm.2)

theorem removePhase_count {T : Type} (cfg : Config T) (s : Ring T)
    (n : T) (hnd : (s.nodesMap.map (·.1)).Nodup) (str : String) :
    ownedCount cfg (removePhase cfg s n) str =
      if str = cfg.nodeToString n then 0
      else ownedCount cfg s str := by
  rw [ownedCount, removePhase_nodesMap cfg s n hnd, List.filter_filter]
  split
  · rename_i hstr
    subst hstr
    rw [List.filter_eq_nil_iff.mpr (fun p _ => by simp)]
    rfl
  · rename_i hstr
    rw [ownedCount]
    refine congrArg List.length (List.filter_congr ?_)
    intro p _
    by_cases hp2 : cfg.nodeToString p.2 = str
    · simp [hp2, hstr]
    · simp [hp2]

theorem removePhase_InvC6 {T : Type} (cfg : Config T) (s : Ring T)
    (n : T) (hInv : InvC6 cfg s) :
    InvC6 cfg (removePhase cfg s n) := by
  obtain ⟨hnd, hown, hlen⟩ := hInv
  have hmap := removePhase_nodesMap cfg s n hnd
  have hcnt := removePhase_count cfg s n hnd
  refine ⟨?_, ?_, ?_⟩
  · rw [hmap]
    exact hnd.sublist
      (List.Sublist.map (fun p => p.1) (List.filter_sublist s.nodesMap))
  · intro str hpres
    have hpos := (presentB_iff_pos _ _ _).mp hpres
    rw [hcnt str] at hpos ⊢
    by_cases hstr : str = cfg.nodeToString n
    · rw [if_pos hstr] at hpos
      exact absurd hpos (lt_irrefl 0)
    · rw [if_neg hstr] at hpos ⊢
      exact hown str ((presentB_iff_pos _ _ _).mpr hpos)
  · have hpart := filter_length_partition
      (fun p => decide (¬ cfg.nodeToString p.2 = cfg.nodeToString n))
      s.nodesMap
    have hneg : s.nodesMap.filter
        (fun p => !(decide (¬ cfg.nodeToString p.2 =
          cfg.nodeToString n))) =
        s.nodesMap.filter (fun p =>
          decide (cfg.nodeToString p.2 = cfg.nodeToString n)) :=
      List.filter_congr (fun p _ => by simp [decide_not])
    by_cases hp : presentB cfg s (cfg.nodeToString n) = true
    · have hcnt_n : ownedCount cfg s (cfg.nodeToString n) =
          cfg.replicas := hown _ hp
      have humem : cfg.nodeToString n ∈
          (s.nodesMap.map (fun p => cfg.nodeToString p.2)).toFinset :=
        (mem_nodeKeys_iff cfg s _).mpr hp
      have hupos : 0 < getUniqueNodeCount cfg s :=
        Finset.card_pos.mpr ⟨_, humem⟩
      have hfs : ((removePhase cfg s n).nodesMap.map
            (fun p => cfg.nodeToString p.2)).toFinset =
          ((s.nodesMap.map
            (fun p => cfg.nodeToString p.2)).toFinset).erase
            (cfg.nodeToString n) := by
        apply Finset.ext
        intro str
        rw [mem_nodeKeys_iff, Finset.mem_erase, mem_nodeKeys_iff,
          presentB_iff_pos, presentB_iff_pos, hcnt str]
        constructor
        · intro hpos
          by_cases hstr : str = cfg.nodeToString n
          · rw [if_pos hstr] at hpos
            exact absurd hpos (lt_irrefl 0)
          · rw [if_neg hstr] at hpos
            exact ⟨hstr, hpos⟩
        · rintro ⟨hne, hpos⟩
          rw [if_neg hne]
          exact hpos
      have hcard : getUniqueNodeCount cfg (removePhase cfg s n) =
          getUniqueNodeCount cfg s - 1 := by
        rw [getUniqueNodeCount, getUniqueNodeCount, hfs,
          Finset.card_erase_of_mem humem]
      have hfneg : (s.nodesMap.filter
          (fun p => !(decide (¬ cfg.nodeToString p.2 =
            cfg.nodeToString n)))).length = cfg.replicas := by
        rw [hneg]
        exact hcnt_n
      have hlenmid : (removePhase cfg s n).nodesMap.length =
          s.nodesMap.length - cfg.replicas := by
        rw [hmap]
        omega
      rw [hlenmid, hcard, hlen]
      have hu1 : getUniqueNodeCount cfg s =
          (getUniqueNodeCount cfg s - 1) + 1 := by omega
      calc cfg.replicas * getUniqueNodeCount cfg s - cfg.replicas
          = cfg.replicas * ((getUniqueNodeCount cfg s - 1) + 1) -
              cfg.replicas := by rw [← hu1]
        _ = cfg.replicas * (getUniqueNodeCount cfg s - 1) +
              cfg.replicas - cfg.replicas := by rw [Nat.mul_succ]
        _ = cfg.replicas * (getUniqueNodeCount cfg s - 1) := by
              omega
    · have hz : ownedCount cfg s (cfg.nodeToString n) = 0 := by
        cases hc : ownedCount cfg s (cfg.nodeToString n) with
        | zero => rfl
        | succ k =>
          exact absurd ((presentB_iff_pos _ _ _).mpr (by omega)) hp
      have hsame : (removePhase cfg s n).nodesMap = s.nodesMap := by
        rw [hmap]
        apply List.filter_eq_self.mpr
        intro p hpmem
        rw [decide_eq_true_iff]
        intro hts
        have hposn : 0 < ownedCount cfg s (cfg.nodeToString n) :=
          List.length_pos.mpr (List.ne_nil_of_mem
            (List.mem_filter.mpr ⟨hpmem, by simpa using hts⟩))
        omega
      have hpres_same : ∀ str,
          presentB cfg (removePhase cfg s n) str =
            presentB cfg s str := by
        intro str
        rw [presentB, presentB, hsame]
      rw [hsame, uniqueNodeCount_congr cfg (removePhase cfg s n) s
        hpres_same]
      exact hlen

theorem fixAdjacent_preserves_InvC6 {T : Type} [Inhabited T]
    (cfg : Config T) (fuel : Nat) (s : Ring T) (hInv : InvC6 cfg s)
    (hret : (fixAdjacentReplicas cfg fuel s).2 ≠ RepairExit.outOfFuel) :
    InvC6 cfg (fixAdjacentReplicas cfg fuel s).1 := by
  rw [fixAdjacentReplicas]
  split
  · exact hInv
  · rename_i hge
    rw [fixAdjacentReplicas, if_neg hge] at hret
    obtain ⟨hnd2, hcnt2, hlen2⟩ := repairLoop_preserves cfg fuel s
      (repairLoop cfg fuel s).1 (repairLoop cfg fuel s).2 rfl hret
      hInv.1
    refine ⟨hnd2, ?_, ?_⟩
    · intro str hpres
      rw [hcnt2 str]
      refine hInv.2.1 str ?_
      rw [← presentB_congr_of_counts cfg _ s hcnt2 str]
      exact hpres
    · rw [hlen2, hInv.2.2]
      congr 1
      exact (uniqueNodeCount_congr cfg _ s
        (presentB_congr_of_counts cfg _ s hcnt2)).symm

theorem map_fst_map_pair {β : Type} (n : β) :
    ∀ ds : List String, (ds.map (fun d => (d, n))).map (·.1) = ds := by
  intro ds
  induction ds with
  | nil => rfl
  | cons d t ih => rw [List.map_cons, List.map_cons, ih]

theorem addReplicas_InvC6 {T : Type} (cfg : Config T) (s : Ring T)
    (n : T) (sp : Bool) (hrep : 0 < cfg.replicas) (hInv : InvC6 cfg s)
    (hgrow : (addReplicas cfg s n sp).nodesMap.length =
      s.nodesMap.length + cfg.replicas)
    (habs : presentB cfg s (cfg.nodeToString n) = false) :
    InvC6 cfg (addReplicas cfg s n sp) := by
  obtain ⟨hnd, hown, hlen⟩ := hInv
  obtain ⟨ds, hdsl, hdsnd, hdsf, hdseq⟩ :=
    addFrom_append cfg n sp cfg.replicas 0 s hgrow
  have hdseq' : (addReplicas cfg s n sp).nodesMap =
      s.nodesMap ++ ds.map (fun d => (d, n)) := hdseq
  have hkeys : (ds.map (fun d => (d, n))).map (·.1) = ds :=
    map_fst_map_pair n ds
  have hcount : ∀ str, ownedCount cfg (addReplicas cfg s n sp) str =
      ownedCount cfg s str +
        if cfg.nodeToString n = str then cfg.replicas else 0 := by
    intro str
    rw [ownedCount, hdseq', List.filter_append, List.length_append,
      filter_map_const_pair, hdsl]
    rfl
  refine ⟨?_, ?_, ?_⟩
  · rw [hdseq', List.map_append]
    refine List.Nodup.append hnd ?_ ?_
    · rw [hkeys]
      exact hdsnd
    · intro x hx hx2
      rw [hkeys] at hx2
      exact (mapHas_false_iff s.nodesMap x).mp (hdsf x hx2) hx
  · intro str hpres
    have hpos := (presentB_iff_pos _ _ _).mp hpres
    rw [hcount str] at hpos ⊢
    by_cases hts : cfg.nodeToString n = str
    · rw [if_pos hts]
      have hz : ownedCount cfg s str = 0 := by
        rw [← hts]
        cases hc : ownedCount cfg s (cfg.nodeToString n) with
        | zero => rfl
        | succ k =>
          have := (presentB_iff_pos cfg s (cfg.nodeToString n)).mpr
            (by omega)
          rw [habs] at this
          cases this
      rw [hz]
      exact Nat.zero_add _
    · rw [if_neg hts] at hpos ⊢
      rw [Nat.add_zero] at hpos ⊢
      exact hown str ((presentB_iff_pos _ _ _).mpr hpos)
  · have hnotmem : cfg.nodeToString n ∉
        (s.nodesMap.map (fun p => cfg.nodeToString p.2)).toFinset := by
      intro hmem
      have := (mem_nodeKeys_iff cfg s _).mp hmem
      rw [habs] at this
      cases this
    have hins : ((addReplicas cfg s n sp).nodesMap.map
          (fun p => cfg.nodeToString p.2)).toFinset =
        insert (cfg.nodeToString n)
          ((s.nodesMap.map (fun p => cfg.nodeToString p.2)).toFinset)
        := by
      apply Finset.ext
      intro str
      rw [mem_nodeKeys_iff, Finset.mem_insert, mem_nodeKeys_iff,
        presentB_iff_pos, presentB_iff_pos, hcount str]
      by_cases hts : cfg.nodeToString n = str
      · rw [if_pos hts]
        constructor
        · intro _
          exact Or.inl hts.symm
        · intro _
          omega
      · rw [if_neg hts]
        constructor
        · intro hpos
          exact Or.inr (by omega)
        · rintro (h | h)
          · exact absurd h.symm hts
          · omega
    rw [hgrow, hlen]
    simp only [getUniqueNodeCount]
    rw [hins, Finset.card_insert_of_not_mem hnotmem]
    ring

theorem legalStep_preserves_InvC6 {T : Type} [Inhabited T]
    (cfg : Config T) (fuel : Nat) (s : Ring T) (op : Op T)
    (hrep : 0 < cfg.replicas) (hInv : InvC6 cfg s)
    (hleg : legalStep cfg fuel s op = true) :
    InvC6 cfg (execOp cfg fuel s op).1 := by
  cases op with
  | add n sp =>
    rw [legalStep, Bool.and_eq_true, Bool.and_eq_true] at hleg
    obtain ⟨⟨hgrow, habs⟩, hret⟩ := hleg
    exact fixAdjacent_preserves_InvC6 cfg fuel _
      (addReplicas_InvC6 cfg s n sp hrep hInv (of_decide_eq_true hgrow)
        (by simpa using habs))
      (of_decide_eq_true hret)
  | remove n =>
    rw [legalStep] at hleg
    exact fixAdjacent_preserves_InvC6 cfg fuel _
      (removePhase_InvC6 cfg s n hInv) (of_decide_eq_true hleg)

theorem execOps_InvC6 {T : Type} [Inhabited T] (cfg : Config T)
    (fuel : Nat) (hrep : 0 < cfg.replicas) :
    ∀ (ops : List (Op T)) (s : Ring T), InvC6 cfg s →
      legalRun cfg fuel s ops = true →
      InvC6 cfg (execOps cfg fuel s ops) := by
  intro ops
  induction ops with
  | nil =>
    intro s hInv _
    exact hInv
  | cons op ops ih =>
    intro s hInv hleg
    rw [legalRun, Bool.and_eq_true] at hleg
    rw [execOps]
    exact ih _ (legalStep_preserves_InvC6 cfg fuel s op hrep hInv hleg.1)
      hleg.2

/-- C6 (amended): provided every step of a finite sequence of
`addNode`/`removeNode` calls is legal — each added node is absent at the
time of its addition, all digests produced by the insertion loop are
fresh (the no-collision invariant of §3), and every call returns — the
table bookkeeping is exact: starting from any state satisfying the
bookkeeping invariant (e.g. the empty ring), after the run
`getNodesCount()` equals the number `N` of distinct present physical
nodes, and every present node owns exactly `replicas` virtual
positions. -/
theorem C6_counts_after_legal_run {T : Type} [Inhabited T]
    (cfg : Config T) (fuel : Nat) (s₀ : Ring T) (ops : List (Op T))
    (hrep : 0 < cfg.replicas) (hInv : InvC6 cfg s₀)
    (hleg : legalRun cfg fuel s₀ ops = true) :
    getNodesCount cfg (execOps cfg fuel s₀ ops) =
      (getUniqueNodeCount cfg (execOps cfg fuel s₀ ops) : ℚ) ∧
    ∀ str, presentB cfg (execOps cfg fuel s₀ ops) str = true →
      ownedCount cfg (execOps cfg fuel s₀ ops) str = cfg.replicas := by
  obtain ⟨hnd, hown, hlen⟩ := execOps_InvC6 cfg fuel hrep ops s₀ hInv
    hleg
  refine ⟨?_, hown⟩
  have hr0 : (cfg.replicas : ℚ) ≠ 0 := by
    exact_mod_cast Nat.pos_iff_ne_zero.mp hrep
  rw [getNodesCount, hlen, Nat.cast_mul, mul_comm, mul_div_assoc,
    div_self hr0, mul_one]

theorem C6_witness :
    getNodesCount cfgW (execOps cfgW 10 (emptyRing String)
        [Op.add "A" false, Op.add "B" false]) =
      (getUniqueNodeCount cfgW (execOps cfgW 10 (emptyRing String)
        [Op.add "A" false, Op.add "B" false]) : ℚ) ∧
    ∀ str, presentB cfgW (execOps cfgW 10 (emptyRing String)
        [Op.add "A" false, Op.add "B" false]) str = true →
      ownedCount cfgW (execOps cfgW 10 (emptyRing String)
        [Op.add "A" false, Op.add "B" false]) str = cfgW.replicas :=
  C6_counts_after_legal_run cfgW 10 (emptyRing String)
    [Op.add "A" false, Op.add "B" false] (by decide)
    ⟨by decide, fun str h => by simp [presentB, emptyRing] at h,
      by decide⟩
    (by decide)

/-- The integer `spreadFactor` agrees with the source's floating-point
formula `Math.floor(i / Math.max(1, this.getNodesCount())) + 1`
evaluated exactly over the rationals (for a positive replica count). -/
theorem spreadFactor_eq_floor {T : Type} (cfg : Config T) (s : Ring T)
    (i : Nat) (hrep : 0 < cfg.replicas) :
    spreadFactor cfg s i =
      ⌊(i : ℚ) / max 1 (getNodesCount cfg s)⌋₊ + 1 := by
  simp only [spreadFactor, getNodesCount]
  by_cases hle : s.nodesMap.length ≤ cfg.replicas
  · rw [if_pos hle]
    have hmax : max 1 ((s.nodesMap.length : ℚ) / (cfg.replicas : ℚ)) =
        1 := by
      rw [max_eq_left]
      rw [div_le_one (by exact_mod_cast hrep)]
      exact_mod_cast hle
    rw [hmax, div_one, Nat.floor_natCast]
  · rw [if_neg hle]
    push_neg at hle
    have hrepQ : (0 : ℚ) < cfg.replicas := by exact_mod_cast hrep
    have hmax : max 1 ((s.nodesMap.length : ℚ) / (cfg.replicas : ℚ)) =
        (s.nodesMap.length : ℚ) / (cfg.replicas : ℚ) := by
      rw [max_eq_right]
      rw [one_le_div hrepQ]
      exact_mod_cast Nat.le_of_lt hle
    rw [hmax, div_div_eq_mul_div, ← Nat.cast_mul, Nat.floor_div_nat,
      Nat.floor_natCast]

end HashRingModel
